import Mathlib

/-!
Verification of the GreenViva personal-finance dashboard core logic,
shallowly embedded from the TypeScript source.

Modelling conventions:
* JavaScript strings are modelled as `List Char` (abbreviation `Str`).
* JavaScript numbers that the claims exercise only at exact values are
  modelled as `Nat` (tip amounts, timestamps) or `Rat` (transfer amounts).
* The URL-safe base64 encode/decode pair in `GmailService`
  (`encodeMessage`/`decodeMessage`) is a bijective transport codec
  (base64url-encode, then decode back); the draft store is therefore
  modelled at the decoded-text level.
* `JSON.stringify(tips, null, 2)` is modelled by `renderTips`, which
  produces the exact character sequence the ECMAScript serialization
  algorithm produces for a `Tip[]` value with two-space indentation.
* `JSON.parse` is modelled by `parseJson`, a recursive-descent parser for
  the RFC 8259 grammar (numbers keep their lexeme; a lone `\uXXXX` escape
  becomes the corresponding scalar).
-/

/-- Strings of the source are modelled as lists of characters. -/
abbrev Str := List Char

/-- The `Tip` record of `src/lib/db.ts`:
`{ id: string; amount: number; date: string; note?: string; synced?: boolean }`.
The two optional fields are `Option`; `amount` is exercised by the claims only
at nonnegative integral values and is modelled as `Nat`. -/
structure Tip where
  id : Str
  amount : Nat
  date : Str
  note : Option Str
  synced : Option Bool
deriving DecidableEq, Repr

/-- JSON values as returned by `JSON.parse`. Number values keep their source
lexeme: no claim depends on their numeric interpretation. -/
inductive Json where
  | null
  | bool (b : Bool)
  | num (lexeme : Str)
  | str (s : Str)
  | arr (elems : List Json)
  | obj (members : List (Str × Json))
deriving Repr

/-- JSON insignificant whitespace (RFC 8259): space, tab, LF, CR. -/
def jsonWs (c : Char) : Bool := c = ' ' || c = '\t' || c = '\n' || c = '\r'

/-- Lower-case hexadecimal digit, as emitted by `JSON.stringify` in
`\u00XX` escapes. -/
def hexDigitChar (n : Nat) : Char := if n < 10 then Char.ofNat (48 + n) else Char.ofNat (87 + n)

/-- Value of a hexadecimal digit accepted by `JSON.parse` in `\uXXXX`. -/
def hexVal (c : Char) : Option Nat :=
  if '0' ≤ c ∧ c ≤ '9' then some (c.toNat - 48)
  else if 'a' ≤ c ∧ c ≤ 'f' then some (c.toNat - 87)
  else if 'A' ≤ c ∧ c ≤ 'F' then some (c.toNat - 55)
  else none

/-- Escape of a single character inside a JSON string literal, following the
ECMAScript `QuoteJSONString` algorithm used by `JSON.stringify`. -/
def escChar (c : Char) : Str :=
  if c = '"' then ['\\', '"']
  else if c = '\\' then ['\\', '\\']
  else if c = '\x08' then ['\\', 'b']
  else if c = '\x0c' then ['\\', 'f']
  else if c = '\n' then ['\\', 'n']
  else if c = '\r' then ['\\', 'r']
  else if c = '\t' then ['\\', 't']
  else if c.toNat < 32 then ['\\', 'u', '0', '0', hexDigitChar (c.toNat / 16), hexDigitChar (c.toNat % 16)]
  else [c]

/-- `JSON.stringify` escaping of a whole string (without the quotes). -/
def escapeStr (s : Str) : Str := s.flatMap escChar

/-- Body of a JSON string literal, after the opening quote: returns the
decoded characters and the input remaining after the closing quote.
Mirrors the `JSON.parse` string grammar: raw characters from `0x20` up,
the two-character escapes, and `\uXXXX`. -/
def parseStrBody : Str → Option (Str × Str)
  | [] => none
  | c :: r =>
    if c = '"' then some ([], r)
    else if c = '\\' then
      match r with
      | [] => none
      | e :: r2 =>
        if e = '"' then (parseStrBody r2).map (fun p => ('"' :: p.1, p.2))
        else if e = '\\' then (parseStrBody r2).map (fun p => ('\\' :: p.1, p.2))
        else if e = '/' then (parseStrBody r2).map (fun p => ('/' :: p.1, p.2))
        else if e = 'b' then (parseStrBody r2).map (fun p => ('\x08' :: p.1, p.2))
        else if e = 'f' then (parseStrBody r2).map (fun p => ('\x0c' :: p.1, p.2))
        else if e = 'n' then (parseStrBody r2).map (fun p => ('\n' :: p.1, p.2))
        else if e = 'r' then (parseStrBody r2).map (fun p => ('\r' :: p.1, p.2))
        else if e = 't' then (parseStrBody r2).map (fun p => ('\t' :: p.1, p.2))
        else if e = 'u' then
          match r2 with
          | h1 :: h2 :: h3 :: h4 :: r3 =>
            match hexVal h1, hexVal h2, hexVal h3, hexVal h4 with
            | some a, some b, some c2, some d =>
              (parseStrBody r3).map (fun p => (Char.ofNat (((a * 16 + b) * 16 + c2) * 16 + d) :: p.1, p.2))
            | _, _, _, _ => none
          | _ => none
        else none
    else if 32 ≤ c.toNat then (parseStrBody r).map (fun p => (c :: p.1, p.2))
    else none

/-- Decimal digits of a natural number, most significant first; `fuel`
bounds the recursion (any `fuel > n` is enough). -/
def natDigitsAux : Nat → Nat → Str
  | 0, _ => []
  | fuel + 1, n =>
    if n < 10 then [Char.ofNat (48 + n)]
    else natDigitsAux fuel (n / 10) ++ [Char.ofNat (48 + n % 10)]

/-- Decimal digits of a natural number, most significant first, as produced
by ECMAScript number-to-string conversion for nonnegative integers. -/
def natDigits (n : Nat) : Str := natDigitsAux (n + 1) n

/-- Decimal digit test, shared by the number lexer and the regex models
(the `\d` character class). -/
def isDigitChar (c : Char) : Bool := 48 ≤ c.toNat && c.toNat ≤ 57

/-- Optional exponent of a JSON number lexeme, appended to an already
matched fraction `frac`; `none` when a started exponent is malformed. -/
def parseExpPart (frac : Str) (s1 : Str) : Option (Str × Str) :=
  match s1 with
  | e :: r =>
    if e = 'e' ∨ e = 'E' then
      let (esgn, r1) : Str × Str :=
        match r with
        | '+' :: r2 => (['+'], r2)
        | '-' :: r2 => (['-'], r2)
        | _ => ([], r)
      match r1.takeWhile isDigitChar with
      | [] => none
      | ds => some (frac ++ e :: esgn ++ ds, r1.dropWhile isDigitChar)
    else some (frac, s1)
  | [] => some (frac, s1)

/-- Optional fraction and exponent of a JSON number lexeme; returns the
matched characters and the remaining input, or `none` when a started
fraction or exponent is malformed. -/
def parseFracExp (s : Str) : Option (Str × Str) :=
  match s with
  | '.' :: r =>
    match r.takeWhile isDigitChar with
    | [] => none
    | ds => parseExpPart ('.' :: ds) (r.dropWhile isDigitChar)
  | _ => parseExpPart [] s

/-- Integer part (and what follows) of a JSON number lexeme, after the
optional sign `sgn`: a lone zero or a nonzero digit followed by more
digits, then the optional fraction and exponent. -/
def parseNumTail (sgn : Str) : Str → Option (Str × Str)
  | [] => none
  | c :: r =>
    if c = '0' then
      (parseFracExp r).map (fun p => (sgn ++ '0' :: p.1, p.2))
    else if isDigitChar c then
      (parseFracExp (r.dropWhile isDigitChar)).map
        (fun p => (sgn ++ c :: r.takeWhile isDigitChar ++ p.1, p.2))
    else none

/-- JSON number lexeme at the head of the input (RFC 8259 `number`):
optional minus, integer part without a spurious leading zero, optional
fraction, optional exponent. Returns the lexeme and the remaining input. -/
def parseNumLex (s : Str) : Option (Str × Str) :=
  match s with
  | [] => none
  | c :: r => if c = '-' then parseNumTail ['-'] r else parseNumTail [] (c :: r)

mutual

/-- `JSON.parse` value parser: leading whitespace, then one JSON value;
returns the value and the input remaining after it. `fuel` bounds the
recursion depth; `parseJson` supplies enough fuel for any accepted input. -/
def pValue : Nat → Str → Option (Json × Str)
  | 0, _ => none
  | n + 1, s =>
    match s.dropWhile jsonWs with
    | [] => none
    | c :: r =>
      if c = '{' then
        match r.dropWhile jsonWs with
        | '}' :: r2 => some (Json.obj [], r2)
        | _ => (pMembers n r).map (fun p => (Json.obj p.1, p.2))
      else if c = '[' then
        match r.dropWhile jsonWs with
        | ']' :: r2 => some (Json.arr [], r2)
        | _ => (pElems n r).map (fun p => (Json.arr p.1, p.2))
      else if c = '"' then (parseStrBody r).map (fun p => (Json.str p.1, p.2))
      else if c = 'n' then
        match r with
        | 'u' :: 'l' :: 'l' :: r2 => some (Json.null, r2)
        | _ => none
      else if c = 't' then
        match r with
        | 'r' :: 'u' :: 'e' :: r2 => some (Json.bool true, r2)
        | _ => none
      else if c = 'f' then
        match r with
        | 'a' :: 'l' :: 's' :: 'e' :: r2 => some (Json.bool false, r2)
        | _ => none
      else (parseNumLex (c :: r)).map (fun p => (Json.num p.1, p.2))

/-- One or more object members (after the opening brace, which the caller
consumed), through the closing brace. -/
def pMembers : Nat → Str → Option (List (Str × Json) × Str)
  | 0, _ => none
  | n + 1, s =>
    match s.dropWhile jsonWs with
    | '"' :: r =>
      match parseStrBody r with
      | none => none
      | some (key, r2) =>
        match r2.dropWhile jsonWs with
        | ':' :: r3 =>
          match pValue n r3 with
          | none => none
          | some (v, r4) =>
            match r4.dropWhile jsonWs with
            | ',' :: r5 => (pMembers n r5).map (fun p => ((key, v) :: p.1, p.2))
            | '}' :: r5 => some ([(key, v)], r5)
            | _ => none
        | _ => none
    | _ => none

/-- One or more array elements (after the opening bracket, which the caller
consumed), through the closing bracket. -/
def pElems : Nat → Str → Option (List Json × Str)
  | 0, _ => none
  | n + 1, s =>
    match pValue n s with
    | none => none
    | some (v, r) =>
      match r.dropWhile jsonWs with
      | ',' :: r2 => (pElems n r2).map (fun p => (v :: p.1, p.2))
      | ']' :: r2 => some ([v], r2)
      | _ => none

end

/-- `JSON.parse`: a single JSON value, with only whitespace allowed after
it; `none` models the thrown `SyntaxError`. -/
def parseJson (s : Str) : Option Json :=
  match pValue (s.length + 1) s with
  | some (v, r) => if (r.dropWhile jsonWs).isEmpty then some v else none
  | none => none

/-- Rendering of a scalar JSON value inside `JSON.stringify` output
(string literals with the `QuoteJSONString` escaping, number lexemes
verbatim, keyword literals). Only scalars occur inside a serialized tip. -/
def renderScalar : Json → Str
  | Json.str s => '"' :: escapeStr s ++ ['"']
  | Json.num lx => lx
  | Json.bool true => ['t', 'r', 'u', 'e']
  | Json.bool false => ['f', 'a', 'l', 's', 'e']
  | Json.null => ['n', 'u', 'l', 'l']
  | Json.arr _ => []
  | Json.obj _ => []

/-- One serialized object member at depth two of
`JSON.stringify(tips, null, 2)`: four-space indent, quoted key, colon,
space, value. -/
def renderMember (m : Str × Json) : Str :=
  ' ' :: ' ' :: ' ' :: ' ' :: '"' :: escapeStr m.1 ++ '"' :: ':' :: ' ' :: renderScalar m.2

/-- Members joined with a comma and newline, as `JSON.stringify` lays
them out. -/
def renderMembersJoined : List (Str × Json) → Str
  | [] => []
  | [m] => renderMember m
  | m :: m2 :: ms => renderMember m ++ ',' :: '\n' :: renderMembersJoined (m2 :: ms)

/-- Members of a serialized tip object, in the property order of the tip
records handled by the sync code; `undefined` optional fields are omitted,
as `JSON.stringify` omits them. -/
def tipMembers (t : Tip) : List (Str × Json) :=
  [("id".data, Json.str t.id), ("amount".data, Json.num (natDigits t.amount)),
    ("date".data, Json.str t.date)]
  ++ (match t.note with | some n => [("note".data, Json.str n)] | none => [])
  ++ (match t.synced with | some b => [("synced".data, Json.bool b)] | none => [])

/-- The JSON value denoting one tip. -/
def tipJson (t : Tip) : Json := Json.obj (tipMembers t)

/-- Serialization of one tip, as `JSON.stringify(tips, null, 2)` lays it
out at array-element depth: opening brace, members at four-space indent,
closing brace at two-space indent. -/
def renderTip (t : Tip) : Str :=
  '{' :: '\n' :: renderMembersJoined (tipMembers t) ++ ['\n', ' ', ' ', '}']

/-- Array elements joined with a comma, newline and two-space indent. -/
def tipsJoined : List Tip → Str
  | [] => []
  | [t] => renderTip t
  | t :: t2 :: ts => renderTip t ++ ',' :: '\n' :: ' ' :: ' ' :: tipsJoined (t2 :: ts)

/-- `JSON.stringify(tips, null, 2)`. -/
def renderTips : List Tip → Str
  | [] => ['[', ']']
  | t :: ts => '[' :: '\n' :: ' ' :: ' ' :: tipsJoined (t :: ts) ++ ['\n', ']']

/-- The fixed plain-text MIME headers that `createDraftContent` places in
front of the serialized tip collection (`src/app/api/tips/sync/route.ts`
and `GmailService.createDraftContent`). -/
def draftHeader : Str :=
  ("Content-Type: text/plain; charset=\"UTF-8\"\nMIME-Version: 1.0\nSubject: [GreenViva] Tips Sync\n\n").data

/-- `createDraftContent`: headers followed by the pretty-printed JSON of
the full tip collection (before the base64url transport encoding, which
its decoding inverts on load). -/
def createDraftContent (tips : List Tip) : Str := draftHeader ++ renderTips tips

/-- The mailbox's sync-draft state: `none` when no draft with the sentinel
subject exists, otherwise that draft's decoded raw content. -/
abbrev MirrorState := Option Str

/-- The span from the first opening brace to the last closing brace, when
the closing one comes later: the regex match step of `loadTips`. -/
def extractBraceSpan (s : Str) : Option Str :=
  let t := s.dropWhile (fun c => c != '{')
  if t.isEmpty then none
  else
    let u := (t.reverse.dropWhile (fun c => c != '}')).reverse
    if u.isEmpty then none else some u

/-- `GmailService.loadTips` (and the `GET` handler of
`src/app/api/tips/sync/route.ts`): find the sync draft, decode its raw
body, extract the brace-delimited span, `JSON.parse` it; every failure
path returns the empty collection, and the parsed value is returned
unchecked (the code casts it to `Tip[]`). -/
def loadTipsJson (m : MirrorState) : Json :=
  match m with
  | none => Json.arr []
  | some content =>
    match extractBraceSpan content with
    | none => Json.arr []
    | some span =>
      match parseJson span with
      | none => Json.arr []
      | some v => v

/-- `GmailService.syncTips` / the `POST` handler: overwrite (or create)
the single sync draft with the serialized collection. -/
def saveTips (tips : List Tip) (_m : MirrorState) : MirrorState :=
  some (createDraftContent tips)

theorem dropWhile_append_all {p : Char → Bool} {a : Str} (b : Str)
    (h : ∀ c ∈ a, p c = true) :
    List.dropWhile p (a ++ b) = List.dropWhile p b := by
  induction a with
  | nil => rfl
  | cons c cs ih =>
    simp only [List.cons_append, List.dropWhile_cons, h c (by simp), if_true]
    exact ih fun c hc => h c (by simp [hc])

theorem dropWhile_cons_neg {p : Char → Bool} {c : Char} (r : Str) (h : p c = false) :
    List.dropWhile p (c :: r) = c :: r := by
  simp [List.dropWhile_cons, h]

theorem takeWhile_append_all {p : Char → Bool} {a : Str} (b : Str)
    (h : ∀ c ∈ a, p c = true) :
    List.takeWhile p (a ++ b) = a ++ List.takeWhile p b := by
  exact List.takeWhile_append_of_pos h

theorem hexVal_hexDigitChar {n : Nat} (h : n < 16) : hexVal (hexDigitChar n) = some n := by
  interval_cases n <;> decide

theorem parseStrBody_escape (s : Str) (r : Str) :
    parseStrBody (escapeStr s ++ '"' :: r) = some (s, r) := by
  induction s with
  | nil => simp [escapeStr, parseStrBody.eq_def]
  | cons c cs ih =>
    have hesc : escapeStr (c :: cs) = escChar c ++ escapeStr cs := by
      simp [escapeStr]
    rw [hesc, List.append_assoc]
    by_cases h1 : c = '"'
    · subst h1
      simp only [escChar, reduceIte, List.cons_append, List.nil_append]
      rw [parseStrBody.eq_def]
      simp [ih]
    by_cases h2 : c = '\\'
    · subst h2
      simp only [escChar, reduceIte, List.cons_append, List.nil_append]
      rw [parseStrBody.eq_def]
      simp [ih]
    by_cases h3 : c = '\x08'
    · subst h3
      simp only [escChar, reduceIte, List.cons_append, List.nil_append]
      rw [parseStrBody.eq_def]
      simp [ih]
    by_cases h4 : c = '\x0c'
    · subst h4
      simp only [escChar, reduceIte, List.cons_append, List.nil_append]
      rw [parseStrBody.eq_def]
      simp [ih]
    by_cases h5 : c = '\n'
    · subst h5
      simp only [escChar, reduceIte, List.cons_append, List.nil_append]
      rw [parseStrBody.eq_def]
      simp [ih]
    by_cases h6 : c = '\r'
    · subst h6
      simp only [escChar, reduceIte, List.cons_append, List.nil_append]
      rw [parseStrBody.eq_def]
      simp [ih]
    by_cases h7 : c = '\t'
    · subst h7
      simp only [escChar, reduceIte, List.cons_append, List.nil_append]
      rw [parseStrBody.eq_def]
      simp [ih]
    by_cases h8 : c.toNat < 32
    · have hdiv : c.toNat / 16 < 16 := by omega
      have hmod : c.toNat % 16 < 16 := by omega
      have hval : c.toNat / 16 * 16 + c.toNat % 16 = c.toNat := by omega
      have hofn : Char.ofNat (c.toNat / 16 * 16 + c.toNat % 16) = c := by
        rw [hval]; exact Char.ofNat_toNat c
      simp only [escChar, h1, h2, h3, h4, h5, h6, h7, h8, if_false, if_true,
        List.cons_append, List.nil_append]
      rw [parseStrBody.eq_def]
      simp only [reduceIte]
      rw [hexVal_hexDigitChar hdiv, hexVal_hexDigitChar hmod]
      simp [hexVal, ih, hofn]
    · have h32 : 32 ≤ c.toNat := by omega
      simp only [escChar, h1, h2, h3, h4, h5, h6, h7, h8, if_false,
        List.cons_append, List.nil_append]
      rw [parseStrBody.eq_def]
      simp [h1, h2, h32, ih]

theorem digit_ofNat {k : Nat} (h : k < 10) : isDigitChar (Char.ofNat (48 + k)) = true := by
  interval_cases k <;> decide

theorem digit_ofNat_ne_zero {k : Nat} (h1 : 1 ≤ k) (h2 : k < 10) :
    Char.ofNat (48 + k) ≠ '0' := by
  interval_cases k <;> decide

theorem natDigitsAux_ne_nil {fuel n : Nat} (h : n < fuel) : natDigitsAux fuel n ≠ [] := by
  cases fuel with
  | zero => omega
  | succ f =>
    rw [natDigitsAux]
    split <;> simp

theorem natDigitsAux_digits :
    ∀ fuel n, n < fuel → ∀ c ∈ natDigitsAux fuel n, isDigitChar c = true := by
  intro fuel
  induction fuel with
  | zero => intro n h; omega
  | succ f ih =>
    intro n hn c hc
    rw [natDigitsAux] at hc
    by_cases h10 : n < 10
    · simp only [h10, if_true, List.mem_singleton] at hc
      subst hc
      exact digit_ofNat h10
    · simp only [h10, if_false, List.mem_append, List.mem_singleton] at hc
      rcases hc with h1 | h2
      · exact ih (n / 10) (by omega) c h1
      · subst h2
        exact digit_ofNat (by omega)

theorem natDigitsAux_head_ne_zero :
    ∀ fuel n, n < fuel → n ≠ 0 → ∀ d tl, natDigitsAux fuel n = d :: tl → d ≠ '0' := by
  intro fuel
  induction fuel with
  | zero => intro n h; omega
  | succ f ih =>
    intro n hn hn0 d tl heq
    rw [natDigitsAux] at heq
    by_cases h10 : n < 10
    · simp only [h10, if_true] at heq
      obtain ⟨hd, -⟩ := List.cons.inj heq.symm
      subst hd
      exact digit_ofNat_ne_zero (by omega) h10
    · simp only [h10, if_false] at heq
      have hne : natDigitsAux f (n / 10) ≠ [] := natDigitsAux_ne_nil (by omega)
      cases hrec : natDigitsAux f (n / 10) with
      | nil => exact absurd hrec hne
      | cons d0 tl0 =>
        rw [hrec, List.cons_append] at heq
        obtain ⟨hd, -⟩ := List.cons.inj heq
        subst hd
        exact ih (n / 10) (by omega) (by omega) d0 tl0 hrec

/-- A position at which a maximal-munch number lexeme may legally stop:
the next character extends neither the digits nor a fraction nor an
exponent. -/
def numBoundary : Str → Prop
  | [] => True
  | c :: _ => isDigitChar c = false ∧ c ≠ '.' ∧ c ≠ 'e' ∧ c ≠ 'E'

theorem takeWhile_digits_boundary {r : Str} (h : numBoundary r) :
    r.takeWhile isDigitChar = [] := by
  cases r with
  | nil => rfl
  | cons c t => simp [List.takeWhile_cons, h.1]

theorem dropWhile_digits_boundary {r : Str} (h : numBoundary r) :
    r.dropWhile isDigitChar = r := by
  cases r with
  | nil => rfl
  | cons c t => simp [List.dropWhile_cons, h.1]

theorem parseFracExp_boundary {s : Str} (h : numBoundary s) : parseFracExp s = some ([], s) := by
  cases s with
  | nil => rfl
  | cons c r =>
    obtain ⟨h1, h2, h3, h4⟩ := h
    rw [parseFracExp.eq_def]
    split
    · next r2 heq =>
      exact absurd (List.cons.inj heq).1 h2
    · simp [parseExpPart, h3, h4]

theorem parseNumTail_digits {ds : Str} (hds : ∀ c ∈ ds, isDigitChar c = true)
    (hhd : ∀ d tl, ds = d :: tl → d ≠ '0') {r : Str} (h : numBoundary r)
    (hne : ds ≠ []) :
    parseNumTail [] (ds ++ r) = some (ds, r) := by
  cases ds with
  | nil => exact absurd rfl hne
  | cons d tl =>
    have hd : isDigitChar d = true := hds d (by simp)
    have hnz : d ≠ '0' := hhd d tl rfl
    have htl : ∀ c ∈ tl, isDigitChar c = true := fun c hc => hds c (by simp [hc])
    rw [List.cons_append, parseNumTail]
    simp only [hnz, if_false, hd, if_true]
    rw [takeWhile_append_all _ htl, dropWhile_append_all _ htl,
      takeWhile_digits_boundary h, dropWhile_digits_boundary h,
      parseFracExp_boundary h]
    simp

theorem parseNumTail_natDigitsAux {fuel n : Nat} (hf : n < fuel) {r : Str} (h : numBoundary r) :
    parseNumTail [] (natDigitsAux fuel n ++ r) = some (natDigitsAux fuel n, r) := by
  by_cases h0 : n = 0
  · subst h0
    cases fuel with
    | zero => omega
    | succ f =>
      rw [natDigitsAux]
      norm_num [parseNumTail, parseFracExp_boundary h]
  · exact parseNumTail_digits (natDigitsAux_digits fuel n hf)
      (natDigitsAux_head_ne_zero fuel n hf h0) h (natDigitsAux_ne_nil hf)

theorem parseNumLex_natDigitsAux {fuel n : Nat} (hf : n < fuel) {r : Str} (h : numBoundary r) :
    parseNumLex (natDigitsAux fuel n ++ r) = some (natDigitsAux fuel n, r) := by
  have hne : natDigitsAux fuel n ≠ [] := natDigitsAux_ne_nil hf
  cases hrec : natDigitsAux fuel n with
  | nil => exact absurd hrec hne
  | cons d tl =>
    have hd : isDigitChar d = true :=
      natDigitsAux_digits fuel n hf d (by rw [hrec]; simp)
    have hdm : d ≠ '-' := by
      intro hcontra
      subst hcontra
      simp [isDigitChar] at hd
    rw [List.cons_append, parseNumLex]
    simp only [hdm, if_false]
    rw [← List.cons_append, ← hrec]
    exact parseNumTail_natDigitsAux hf h

theorem parseNumLex_natDigits {n : Nat} {r : Str} (h : numBoundary r) :
    parseNumLex (natDigits n ++ r) = some (natDigits n, r) :=
  parseNumLex_natDigitsAux (Nat.lt_succ_self n) h

theorem char_eq_iff_toNat {c d : Char} : c = d ↔ c.toNat = d.toNat := by
  constructor
  · intro h; rw [h]
  · intro h
    have h1 := Char.ofNat_toNat c
    have h2 := Char.ofNat_toNat d
    rw [← h1, ← h2, h]

theorem isDigitChar_toNat {c : Char} (h : isDigitChar c = true) :
    48 ≤ c.toNat ∧ c.toNat ≤ 57 := by
  simpa [isDigitChar] using h

theorem jsonWs_false {c : Char} (h : 33 ≤ c.toNat) : jsonWs c = false := by
  have hsp : (' ').toNat = 32 := rfl
  have htb : ('\t').toNat = 9 := rfl
  have hnl : ('\n').toNat = 10 := rfl
  have hcr : ('\r').toNat = 13 := rfl
  simp only [jsonWs, Bool.or_eq_false_iff, decide_eq_false_iff_not]
  refine ⟨⟨⟨?_, ?_⟩, ?_⟩, ?_⟩ <;>
    (intro heq; rw [char_eq_iff_toNat] at heq; omega)

theorem pValue_str (n : Nat) (s r : Str) :
    pValue (n + 1) ('"' :: (escapeStr s ++ '"' :: r)) = some (Json.str s, r) := by
  rw [pValue]
  rw [dropWhile_cons_neg _ (by decide : jsonWs '"' = false)]
  simp [parseStrBody_escape]

theorem pValue_true (n : Nat) (r : Str) :
    pValue (n + 1) ('t' :: 'r' :: 'u' :: 'e' :: r) = some (Json.bool true, r) := by
  rw [pValue]
  rw [dropWhile_cons_neg _ (by decide : jsonWs 't' = false)]
  simp

theorem pValue_false (n : Nat) (r : Str) :
    pValue (n + 1) ('f' :: 'a' :: 'l' :: 's' :: 'e' :: r) = some (Json.bool false, r) := by
  rw [pValue]
  rw [dropWhile_cons_neg _ (by decide : jsonWs 'f' = false)]
  simp

theorem pValue_num (n k : Nat) {r : Str} (h : numBoundary r) :
    pValue (n + 1) (natDigits k ++ r) = some (Json.num (natDigits k), r) := by
  have hne : natDigits k ≠ [] := natDigitsAux_ne_nil (Nat.lt_succ_self k)
  cases hrec : natDigits k with
  | nil => exact absurd hrec hne
  | cons d tl =>
    have hd : isDigitChar d = true :=
      natDigitsAux_digits (k + 1) k (Nat.lt_succ_self k) d (by rw [← natDigits, hrec]; simp)
    obtain ⟨hd1, hd2⟩ := isDigitChar_toNat hd
    have hne1 : ¬ d = '{' := by
      intro heq; rw [char_eq_iff_toNat] at heq
      have : ('{').toNat = 123 := rfl
      omega
    have hne2 : ¬ d = '[' := by
      intro heq; rw [char_eq_iff_toNat] at heq
      have : ('[').toNat = 91 := rfl
      omega
    have hne3 : ¬ d = '"' := by
      intro heq; rw [char_eq_iff_toNat] at heq
      have : ('"').toNat = 34 := rfl
      omega
    have hne4 : ¬ d = 'n' := by
      intro heq; rw [char_eq_iff_toNat] at heq
      have : ('n').toNat = 110 := rfl
      omega
    have hne5 : ¬ d = 't' := by
      intro heq; rw [char_eq_iff_toNat] at heq
      have : ('t').toNat = 116 := rfl
      omega
    have hne6 : ¬ d = 'f' := by
      intro heq; rw [char_eq_iff_toNat] at heq
      have : ('f').toNat = 102 := rfl
      omega
    rw [List.cons_append, pValue]
    rw [dropWhile_cons_neg _ (jsonWs_false (by omega))]
    simp only [hne1, hne2, hne3, hne4, hne5, hne6, if_false]
    rw [← List.cons_append, ← hrec, parseNumLex_natDigits h]
    rfl

/-- Congruence: leading JSON whitespace does not affect `pValue`. -/
theorem pValue_congr_ws (n : Nat) {w : Str} (s : Str) (hw : ∀ c ∈ w, jsonWs c = true) :
    pValue (n + 1) (w ++ s) = pValue (n + 1) s := by
  rw [pValue, pValue, dropWhile_append_all _ hw]

/-- The shapes of scalar values that occur inside a serialized tip. -/
def scalarOk : Json → Prop
  | Json.str _ => True
  | Json.num lx => ∃ k, lx = natDigits k
  | Json.bool _ => True
  | _ => False

theorem pValue_scalar {v : Json} (hv : scalarOk v) (n : Nat) {w r : Str}
    (hw : ∀ c ∈ w, jsonWs c = true) (hr : numBoundary r) :
    pValue (n + 1) (w ++ (renderScalar v ++ r)) = some (v, r) := by
  rw [pValue_congr_ws n _ hw]
  cases v with
  | str s =>
    have : renderScalar (Json.str s) ++ r = '"' :: (escapeStr s ++ '"' :: r) := by
      simp [renderScalar]
    rw [this, pValue_str]
  | num lx =>
    obtain ⟨k, rfl⟩ := hv
    exact pValue_num n k hr
  | bool b =>
    cases b
    · have : renderScalar (Json.bool false) ++ r = 'f' :: 'a' :: 'l' :: 's' :: 'e' :: r := by
        simp [renderScalar]
      rw [this, pValue_false]
    · have : renderScalar (Json.bool true) ++ r = 't' :: 'r' :: 'u' :: 'e' :: r := by
        simp [renderScalar]
      rw [this, pValue_true]
  | null => exact absurd hv (by simp [scalarOk])
  | arr xs => exact absurd hv (by simp [scalarOk])
  | obj ms => exact absurd hv (by simp [scalarOk])

theorem numBoundary_comma (x : Str) : numBoundary (',' :: x) := by
  refine ⟨by decide, by decide, by decide, by decide⟩

theorem numBoundary_newline (x : Str) : numBoundary ('\n' :: x) := by
  refine ⟨by decide, by decide, by decide, by decide⟩

theorem pMembers_rt :
    ∀ (ms : List (Str × Json)), (∀ m ∈ ms, scalarOk m.2) → ms ≠ [] →
    ∀ (n : Nat) (w r : Str), (∀ c ∈ w, jsonWs c = true) →
    pMembers (n + ms.length + 1) (w ++ renderMembersJoined ms ++ '\n' :: ' ' :: ' ' :: '}' :: r)
      = some (ms, r) := by
  intro ms
  induction ms with
  | nil => intro _ hne; exact absurd rfl hne
  | cons m ms2 ih =>
    intro hsc _ n w r hw
    obtain ⟨key, v⟩ := m
    have hv : scalarOk v := hsc (key, v) (by simp)
    have hw4 : ∀ c ∈ w ++ [' ', ' ', ' ', ' '], jsonWs c = true := by
      intro c hc
      rcases List.mem_append.1 hc with hc | hc
      · exact hw c hc
      · simp at hc; subst hc; decide
    cases ms2 with
    | nil =>
      have hfuel : n + ([((key : Str), v)]).length + 1 = (n + 1) + 1 := by simp
      have harr : w ++ renderMembersJoined [(key, v)] ++ '\n' :: ' ' :: ' ' :: '}' :: r
          = (w ++ [' ', ' ', ' ', ' ']) ++
            '"' :: (escapeStr key ++ '"' ::
              (':' :: (' ' :: (renderScalar v ++ '\n' :: ' ' :: ' ' :: '}' :: r)))) := by
        simp [renderMembersJoined, renderMember]
      rw [hfuel, harr, pMembers, dropWhile_append_all _ hw4,
        dropWhile_cons_neg _ (by decide : jsonWs '"' = false)]
      simp only [parseStrBody_escape]
      rw [dropWhile_cons_neg _ (by decide : jsonWs ':' = false)]
      have hval : pValue (n + 1) (' ' :: (renderScalar v ++ '\n' :: ' ' :: ' ' :: '}' :: r))
          = some (v, '\n' :: ' ' :: ' ' :: '}' :: r) := by
        have := pValue_scalar hv n
          (w := [' ']) (by intro c hc; simp at hc; subst hc; decide)
          (numBoundary_newline ((' ' :: ' ' :: '}' :: r : Str)))
        simpa using this
      simp only [hval]
      have hdrop : List.dropWhile jsonWs ('\n' :: ' ' :: ' ' :: '}' :: r) = '}' :: r := by
        simp [List.dropWhile_cons, jsonWs]
      simp [hdrop]
    | cons m2 ms3 =>
      have hfuel : n + ((key, v) :: m2 :: ms3).length + 1 = (n + (m2 :: ms3).length + 1) + 1 := by
        simp only [List.length_cons]
        omega
      have harr : w ++ renderMembersJoined ((key, v) :: m2 :: ms3) ++ '\n' :: ' ' :: ' ' :: '}' :: r
          = (w ++ [' ', ' ', ' ', ' ']) ++
            '"' :: (escapeStr key ++ '"' ::
              (':' :: (' ' :: (renderScalar v ++ ',' ::
                ('\n' :: (renderMembersJoined (m2 :: ms3) ++ '\n' :: ' ' :: ' ' :: '}' :: r)))))) := by
        simp [renderMembersJoined, renderMember]
      rw [hfuel, harr, pMembers, dropWhile_append_all _ hw4,
        dropWhile_cons_neg _ (by decide : jsonWs '"' = false)]
      simp only [parseStrBody_escape]
      rw [dropWhile_cons_neg _ (by decide : jsonWs ':' = false)]
      have hval : pValue (n + (m2 :: ms3).length + 1)
          (' ' :: (renderScalar v ++ ',' ::
            ('\n' :: (renderMembersJoined (m2 :: ms3) ++ '\n' :: ' ' :: ' ' :: '}' :: r))))
          = some (v, ',' ::
            ('\n' :: (renderMembersJoined (m2 :: ms3) ++ '\n' :: ' ' :: ' ' :: '}' :: r))) := by
        have := pValue_scalar hv (n + (m2 :: ms3).length)
          (w := [' ']) (by intro c hc; simp at hc; subst hc; decide)
          (numBoundary_comma (('\n' :: (renderMembersJoined (m2 :: ms3) ++ '\n' :: ' ' :: ' ' :: '}' :: r) : Str)))
        simpa using this
      simp only [hval]
      rw [dropWhile_cons_neg _ (by decide : jsonWs ',' = false)]
      have hrec := ih (fun mm hm => hsc mm (by simp [hm])) (by simp) n ['\n'] r
        (by intro c hc; simp at hc; subst hc; decide)
      simp only [List.cons_append, List.nil_append] at hrec
      show Option.map (fun p => (((key, v) : Str × Json) :: p.1, p.2))
          (pMembers (n + (m2 :: ms3).length + 1)
            ('\n' :: (renderMembersJoined (m2 :: ms3) ++ '\n' :: ' ' :: ' ' :: '}' :: r)))
        = some ((key, v) :: m2 :: ms3, r)
      rw [hrec]
      rfl

theorem tipMembers_scalarOk (t : Tip) : ∀ m ∈ tipMembers t, scalarOk m.2 := by
  intro m hm
  rcases List.mem_append.1 hm with hm1 | hm1
  · rcases List.mem_append.1 hm1 with hm2 | hm2
    · simp at hm2
      rcases hm2 with rfl | rfl | rfl
      · exact trivial
      · exact ⟨t.amount, rfl⟩
      · exact trivial
    · cases hnote : t.note with
      | none => rw [hnote] at hm2; simp at hm2
      | some nn =>
        rw [hnote] at hm2
        simp at hm2
        subst hm2
        exact trivial
  · cases hsync : t.synced with
    | none => rw [hsync] at hm1; simp at hm1
    | some b =>
      rw [hsync] at hm1
      simp at hm1
      subst hm1
      exact trivial

theorem tipMembers_ne_nil (t : Tip) : tipMembers t ≠ [] := by
  cases t.note <;> cases t.synced <;> simp [tipMembers]

theorem tipMembers_length_le (t : Tip) : (tipMembers t).length ≤ 5 := by
  cases hn : t.note <;> cases hs : t.synced <;> simp [tipMembers, hn, hs]

theorem renderMembersJoined_head (ms : List (Str × Json)) (hne : ms ≠ []) :
    ∃ z : Str, renderMembersJoined ms = ' ' :: ' ' :: ' ' :: ' ' :: '"' :: z := by
  cases ms with
  | nil => exact absurd rfl hne
  | cons m ms2 =>
    cases ms2 with
    | nil =>
      refine ⟨escapeStr m.1 ++ '"' :: ':' :: ' ' :: renderScalar m.2, ?_⟩
      simp [renderMembersJoined, renderMember]
    | cons m2 ms3 =>
      refine ⟨escapeStr m.1 ++ '"' :: ':' :: ' ' ::
        (renderScalar m.2 ++ ',' :: '\n' :: renderMembersJoined (m2 :: ms3)), ?_⟩
      simp [renderMembersJoined, renderMember]

theorem pValue_renderTip (t : Tip) (n : Nat) (r : Str) :
    pValue (n + 8) (renderTip t ++ r) = some (tipJson t, r) := by
  obtain ⟨z, hz⟩ := renderMembersJoined_head (tipMembers t) (tipMembers_ne_nil t)
  have hlen := tipMembers_length_le t
  have harr : renderTip t ++ r
      = '{' :: ('\n' :: (renderMembersJoined (tipMembers t) ++ '\n' :: ' ' :: ' ' :: '}' :: r)) := by
    simp [renderTip]
  have h8 : n + 8 = (n + 7) + 1 := rfl
  rw [harr, h8, pValue]
  rw [dropWhile_cons_neg _ (by decide : jsonWs '{' = false)]
  have hdrop2 : List.dropWhile jsonWs
      ('\n' :: (renderMembersJoined (tipMembers t) ++ '\n' :: ' ' :: ' ' :: '}' :: r))
      = '"' :: (z ++ '\n' :: ' ' :: ' ' :: '}' :: r) := by
    rw [hz]
    simp [List.dropWhile_cons, jsonWs]
  simp only [reduceIte, hdrop2]
  obtain ⟨k, hk⟩ : ∃ k, n + 7 = k + (tipMembers t).length + 1 :=
    ⟨n + (6 - (tipMembers t).length), by omega⟩
  rw [hk]
  have hrec := pMembers_rt (tipMembers t) (tipMembers_scalarOk t) (tipMembers_ne_nil t)
    k ['\n'] r (by intro c hc; simp at hc; subst hc; decide)
  simp only [List.cons_append, List.nil_append] at hrec
  rw [hrec]
  rfl

theorem renderTip_length (t : Tip) : 8 ≤ (renderTip t).length := by
  obtain ⟨z, hz⟩ := renderMembersJoined_head (tipMembers t) (tipMembers_ne_nil t)
  simp [renderTip, hz]

theorem parseJson_renderTip (t : Tip) : parseJson (renderTip t) = some (tipJson t) := by
  have hlen := renderTip_length t
  have hfe : (renderTip t).length + 1 = ((renderTip t).length - 7) + 8 := by omega
  unfold parseJson
  rw [hfe, ← List.append_nil (renderTip t), pValue_renderTip]
  simp

theorem parseJson_renderTip_comma (t1 : Tip) (x : Str) :
    parseJson (renderTip t1 ++ ',' :: x) = none := by
  have hlen := renderTip_length t1
  have hfe : (renderTip t1 ++ ',' :: x).length + 1
      = ((renderTip t1 ++ ',' :: x).length - 7) + 8 := by
    simp [List.length_append]
    omega
  unfold parseJson
  rw [hfe, pValue_renderTip]
  simp [List.dropWhile_cons, jsonWs]

theorem renderTip_head (t : Tip) :
    renderTip t = '{' :: ('\n' :: (renderMembersJoined (tipMembers t) ++ ['\n', ' ', ' ', '}'])) :=
  rfl

theorem tipsJoined_head (t : Tip) (ts : List Tip) :
    ∃ z : Str, tipsJoined (t :: ts) = '{' :: z := by
  cases ts with
  | nil =>
    exact ⟨_, renderTip_head t⟩
  | cons t2 ts2 =>
    refine ⟨'\n' :: (renderMembersJoined (tipMembers t) ++ ['\n', ' ', ' ', '}'])
      ++ ',' :: '\n' :: ' ' :: ' ' :: tipsJoined (t2 :: ts2), ?_⟩
    rw [tipsJoined, renderTip_head t]
    simp

theorem tipsJoined_last (t : Tip) (ts : List Tip) :
    ∃ y : Str, tipsJoined (t :: ts) = y ++ ['}'] := by
  induction ts generalizing t with
  | nil =>
    refine ⟨'{' :: ('\n' :: (renderMembersJoined (tipMembers t) ++ ['\n', ' ', ' '])), ?_⟩
    rw [tipsJoined, renderTip_head t]
    simp
  | cons t2 ts2 ih =>
    obtain ⟨y2, hy2⟩ := ih t2
    refine ⟨renderTip t ++ ',' :: '\n' :: ' ' :: ' ' :: y2, ?_⟩
    rw [tipsJoined, hy2]
    simp

theorem extract_createDraftContent (t : Tip) (ts : List Tip) :
    extractBraceSpan (createDraftContent (t :: ts)) = some (tipsJoined (t :: ts)) := by
  obtain ⟨z, hz⟩ := tipsJoined_head t ts
  obtain ⟨y, hy⟩ := tipsJoined_last t ts
  have hP : ∀ c ∈ draftHeader ++ ['[', '\n', ' ', ' '], (c != '{') = true := by decide
  have harr : createDraftContent (t :: ts)
      = (draftHeader ++ ['[', '\n', ' ', ' ']) ++
        (tipsJoined (t :: ts) ++ ['\n', ']']) := by
    simp [createDraftContent, renderTips]
  have hd : (createDraftContent (t :: ts)).dropWhile (fun c => c != '{')
      = tipsJoined (t :: ts) ++ ['\n', ']'] := by
    rw [harr, dropWhile_append_all _ hP, hz, List.cons_append,
      dropWhile_cons_neg (p := fun c => c != '{') _ (by decide), ← List.cons_append, ← hz]
  have hu : (((tipsJoined (t :: ts) ++ ['\n', ']']).reverse.dropWhile
      (fun c => c != '}')).reverse : Str) = tipsJoined (t :: ts) := by
    rw [hy]
    simp [List.dropWhile_cons]
  have hne1 : (tipsJoined (t :: ts) ++ ['\n', ']']).isEmpty = false := by
    rw [hz]
    simp
  have hne2 : (tipsJoined (t :: ts)).isEmpty = false := by
    rw [hz]
    simp
  simp only [extractBraceSpan, hd, hne1, hu, hne2, Bool.false_eq_true, if_false]

theorem loadTips_save_pair (m : MirrorState) (t1 t2 : Tip) (ts : List Tip) :
    loadTipsJson (saveTips (t1 :: t2 :: ts) m) = Json.arr [] := by
  show (match extractBraceSpan (createDraftContent (t1 :: t2 :: ts)) with
    | none => Json.arr []
    | some span =>
      match parseJson span with
      | none => Json.arr []
      | some v => v) = Json.arr []
  rw [extract_createDraftContent]
  have hsp : tipsJoined (t1 :: t2 :: ts)
      = renderTip t1 ++ ',' :: ('\n' :: ' ' :: ' ' :: tipsJoined (t2 :: ts)) := rfl
  show (match parseJson (tipsJoined (t1 :: t2 :: ts)) with
    | none => Json.arr []
    | some v => v) = Json.arr []
  rw [hsp, parseJson_renderTip_comma]

theorem loadTips_save_single (m : MirrorState) (t : Tip) :
    loadTipsJson (saveTips [t] m) = tipJson t := by
  show (match extractBraceSpan (createDraftContent [t]) with
    | none => Json.arr []
    | some span =>
      match parseJson span with
      | none => Json.arr []
      | some v => v) = tipJson t
  rw [extract_createDraftContent]
  show (match parseJson (tipsJoined [t]) with
    | none => Json.arr []
    | some v => v) = tipJson t
  have hsp : tipsJoined [t] = renderTip t := rfl
  rw [hsp, parseJson_renderTip]

/-- C1: for every tip collection of two or more tips, saving it to the
Remote Tip Mirror (`syncTips`, which serializes with
`JSON.stringify(tips, null, 2)`) and loading it back (`loadTips`, which
extracts the span from the first opening brace to the last closing brace
and parses it) returns the empty collection, because that span is the
first tip object followed by a comma and the remaining objects, which is
not one JSON value; for exactly one tip, loading returns the bare tip
object instead of a one-element list. -/
theorem mirror_save_load_roundtrip (m : MirrorState) (tips : List Tip) :
    (2 ≤ tips.length → loadTipsJson (saveTips tips m) = Json.arr []) ∧
    (∀ t : Tip, tips = [t] → loadTipsJson (saveTips tips m) = tipJson t) := by
  constructor
  · intro h2
    match tips, h2 with
    | t1 :: t2 :: ts, _ => exact loadTips_save_pair m t1 t2 ts
  · intro t ht
    subst ht
    exact loadTips_save_single m t

set_option maxRecDepth 40000 in
/-- Closed instance of `mirror_save_load_roundtrip`: a concrete two-tip
collection loads back as the empty collection, and a one-tip collection
loads back as the bare tip object. -/
theorem mirror_save_load_roundtrip_witness :
    (2 ≤ ([⟨['a'], 5, ['d'], none, some false⟩,
           ⟨['b'], 12, ['e'], some ['x'], some true⟩] : List Tip).length ∧
      loadTipsJson (saveTips [⟨['a'], 5, ['d'], none, some false⟩,
        ⟨['b'], 12, ['e'], some ['x'], some true⟩] none) = Json.arr []) ∧
    loadTipsJson (saveTips [⟨['a'], 5, ['d'], none, some false⟩] none)
      = tipJson ⟨['a'], 5, ['d'], none, some false⟩ :=
  ⟨⟨by decide,
    (mirror_save_load_roundtrip none _).1 (by decide)⟩,
    (mirror_save_load_roundtrip none [⟨['a'], 5, ['d'], none, some false⟩]).2 _ rfl⟩

/-- C2: the Remote Tip Mirror load operation is a total function of the
mailbox state (every failure is caught), and each failure path returns the
empty collection: no sync draft, no brace-delimited span in the draft
body, or a span that `JSON.parse` rejects. -/
theorem mirror_load_never_raises (m : MirrorState) :
    (m = none → loadTipsJson m = Json.arr []) ∧
    (∀ content, m = some content → extractBraceSpan content = none →
      loadTipsJson m = Json.arr []) ∧
    (∀ content span, m = some content → extractBraceSpan content = some span →
      parseJson span = none → loadTipsJson m = Json.arr []) := by
  refine ⟨?_, ?_, ?_⟩
  · intro h
    subst h
    rfl
  · intro content h hext
    subst h
    show (match extractBraceSpan content with
      | none => Json.arr []
      | some span =>
        match parseJson span with
        | none => Json.arr []
        | some v => v) = Json.arr []
    rw [hext]
  · intro content span h hext hparse
    subst h
    show (match extractBraceSpan content with
      | none => Json.arr []
      | some span =>
        match parseJson span with
        | none => Json.arr []
        | some v => v) = Json.arr []
    rw [hext]
    show (match parseJson span with
      | none => Json.arr []
      | some v => v) = Json.arr []
    rw [hparse]

set_option maxRecDepth 40000 in
/-- Closed instance of `mirror_load_never_raises`: an absent draft, a
draft body without a brace span, and a draft body whose span is not valid
JSON all load as the empty collection. -/
theorem mirror_load_never_raises_witness :
    loadTipsJson none = Json.arr [] ∧
    loadTipsJson (some ("plain text body, no braces".data)) = Json.arr [] ∧
    loadTipsJson (some (['x', '{', 'o', 'o', 'p', 's', '}'])) = Json.arr [] :=
  ⟨(mirror_load_never_raises none).1 rfl,
   (mirror_load_never_raises (some ("plain text body, no braces".data))).2.1 _ rfl (by decide),
   (mirror_load_never_raises (some (['x', '{', 'o', 'o', 'p', 's', '}']))).2.2 _
     (['{', 'o', 'o', 'p', 's', '}']) rfl (by decide) (by rfl)⟩

/-- JavaScript `Map.prototype.set` on an insertion-ordered association
list: an existing key keeps its position and receives the new value; a
fresh key is appended. -/
def mapSet (m : List (Str × Tip)) (k : Str) (v : Tip) : List (Str × Tip) :=
  if m.any (fun p => p.1 = k) then
    m.map (fun p => if p.1 = k then (k, v) else p)
  else m ++ [(k, v)]

/-- The spread `\x7b ...tip, synced: true \x7d` applied to every remote tip in
`SyncService.mergeTips`. -/
def setSynced (t : Tip) : Tip := { t with synced := some true }

/-- `SyncService.mergeTips` (`src/lib/sync.ts`): build a `Map` keyed by
tip id, first inserting every local tip, then overwriting with every
remote tip with `synced` forced to `true`; return the map's values. -/
def mergeTips (locals remotes : List Tip) : List Tip :=
  let m1 := locals.foldl (fun m t => mapSet m t.id t) []
  let m2 := remotes.foldl (fun m t => mapSet m t.id (setSynced t)) m1
  m2.map (fun p => p.2)

/-- The last record of `l` bearing identifier `k`: the record a JS `Map`
holds after setting every record of `l` in order. -/
def lastById (l : List Tip) (k : Str) : Option Tip :=
  l.reverse.find? (fun t => t.id = k)

theorem lastById_cons (t : Tip) (l : List Tip) (k : Str) :
    lastById (t :: l) k
      = match lastById l k with
        | some u => some u
        | none => if t.id = k then some t else none := by
  unfold lastById
  rw [List.reverse_cons, List.find?_append]
  cases hfind : List.find? (fun t => t.id = k) l.reverse with
  | some u => simp
  | none =>
    by_cases ht : t.id = k <;> simp [List.find?, ht]

theorem find?_congr_mem {α : Type} (P Q : α → Bool) :
    ∀ (l : List α), (∀ x ∈ l, P x = Q x) → l.find? P = l.find? Q := by
  intro l
  induction l with
  | nil => intro _; rfl
  | cons x l2 ih =>
    intro h
    rw [List.find?_cons, List.find?_cons, h x (by simp)]
    cases Q x
    · exact ih fun y hy => h y (by simp [hy])
    · rfl

theorem find?_mapSet_self (m : List (Str × Tip)) (k : Str) (v : Tip) :
    (mapSet m k v).find? (fun p => p.1 = k) = some (k, v) := by
  unfold mapSet
  split
  · next hany =>
    rw [List.find?_map]
    obtain ⟨q, hq, hqk⟩ := List.any_eq_true.1 hany
    have hsome : (List.find? ((fun p => decide (p.1 = k)) ∘
        fun p => if p.1 = k then (k, v) else p) m).isSome := by
      rw [List.find?_isSome]
      refine ⟨q, hq, ?_⟩
      simp only [Function.comp]
      simp only [decide_eq_true_eq] at hqk
      simp [hqk]
    cases hfind : List.find? ((fun p => decide (p.1 = k)) ∘
        fun p => if p.1 = k then (k, v) else p) m with
    | none => rw [hfind] at hsome; simp at hsome
    | some q2 =>
      have hq2 := List.find?_some hfind
      simp only [Function.comp, decide_eq_true_eq] at hq2
      by_cases hk2 : q2.1 = k
      · simp [hk2]
      · simp [hk2] at hq2
  · next hany =>
    rw [List.find?_append]
    have hnone : m.find? (fun p => p.1 = k) = none := by
      rw [List.find?_eq_none]
      intro p hp
      intro hpk
      exact hany (List.any_eq_true.2 ⟨p, hp, hpk⟩)
    rw [hnone]
    simp [List.find?]

theorem find?_mapSet_other (m : List (Str × Tip)) (k : Str) (v : Tip) (k2 : Str)
    (hne : ¬ k2 = k) :
    (mapSet m k v).find? (fun p => p.1 = k2) = m.find? (fun p => p.1 = k2) := by
  unfold mapSet
  split
  · rw [List.find?_map]
    have hpred : ((fun p => decide (p.1 = k2)) ∘ (fun p : Str × Tip => if p.1 = k then (k, v) else p))
        = fun p => decide (p.1 = k2) := by
      funext p
      simp only [Function.comp]
      by_cases hpk : p.1 = k
      · simp [hpk]
      · simp [hpk]
    rw [hpred]
    cases hfind : m.find? (fun p => p.1 = k2) with
    | none => rfl
    | some q =>
      have hq := List.find?_some hfind
      simp only [decide_eq_true_eq] at hq
      have : ¬ q.1 = k := by rw [hq]; exact hne
      simp [this]
  · rw [List.find?_append]
    cases hfind : m.find? (fun p => p.1 = k2) with
    | some q => simp
    | none =>
      simp [List.find?, show ¬ (k = k2) from fun h => hne h.symm]

theorem find?_foldl_mapSet (f : Tip → Tip) :
    ∀ (l : List Tip) (m0 : List (Str × Tip)) (k : Str),
    ((l.foldl (fun m t => mapSet m t.id (f t)) m0).find? (fun p => p.1 = k))
      = match lastById l k with
        | some t => some (k, f t)
        | none => m0.find? (fun p => p.1 = k) := by
  intro l
  induction l with
  | nil => intro m0 k; simp [lastById]
  | cons t l2 ih =>
    intro m0 k
    rw [List.foldl_cons, ih, lastById_cons]
    cases hl2 : lastById l2 k with
    | some u => rfl
    | none =>
      by_cases ht : t.id = k
      · subst ht
        simp [find?_mapSet_self]
      · simp only [ht, if_false]
        exact find?_mapSet_other m0 t.id (f t) k (fun h => ht h.symm)

/-- Every association held by the merge map binds a tip to its own
identifier. -/
def wfMap (m : List (Str × Tip)) : Prop := ∀ p ∈ m, p.2.id = p.1

theorem wfMap_mapSet {m : List (Str × Tip)} (hm : wfMap m) {k : Str} {v : Tip}
    (hv : v.id = k) : wfMap (mapSet m k v) := by
  unfold mapSet
  split
  · intro p hp
    obtain ⟨q, hq, hqe⟩ := List.mem_map.1 hp
    by_cases hqk : q.1 = k
    · rw [if_pos hqk] at hqe
      rw [← hqe]
      exact hv
    · rw [if_neg hqk] at hqe
      rw [← hqe]
      exact hm q hq
  · intro p hp
    rcases List.mem_append.1 hp with hp | hp
    · exact hm p hp
    · simp at hp
      subst hp
      exact hv

theorem wfMap_foldl (f : Tip → Tip) (hf : ∀ t, (f t).id = t.id) :
    ∀ (l : List Tip) (m0 : List (Str × Tip)), wfMap m0 →
    wfMap (l.foldl (fun m t => mapSet m t.id (f t)) m0) := by
  intro l
  induction l with
  | nil => intro m0 h; exact h
  | cons t l2 ih =>
    intro m0 h
    rw [List.foldl_cons]
    exact ih _ (wfMap_mapSet h (hf t))

theorem keys_mapSet (m : List (Str × Tip)) (k : Str) (v : Tip) :
    (mapSet m k v).map Prod.fst
      = if m.any (fun p => p.1 = k) then m.map Prod.fst else m.map Prod.fst ++ [k] := by
  unfold mapSet
  split
  · rw [List.map_map]
    apply List.map_congr_left
    intro p _
    by_cases hpk : p.1 = k
    · simp [hpk]
    · simp [hpk]
  · simp

theorem nodupKeys_mapSet {m : List (Str × Tip)} (hm : (m.map Prod.fst).Nodup)
    (k : Str) (v : Tip) : ((mapSet m k v).map Prod.fst).Nodup := by
  rw [keys_mapSet]
  split
  · exact hm
  · next h =>
    rw [List.nodup_append]
    refine ⟨hm, List.nodup_singleton k, fun x hx hxk => ?_⟩
    have hxk2 : x = k := List.mem_singleton.1 hxk
    subst hxk2
    obtain ⟨p, hp, hpk⟩ := List.mem_map.1 hx
    exact absurd (List.any_eq_true.2 ⟨p, hp, decide_eq_true hpk⟩) h

theorem nodupKeys_foldl (f : Tip → Tip) :
    ∀ (l : List Tip) (m0 : List (Str × Tip)), (m0.map Prod.fst).Nodup →
    (((l.foldl (fun m t => mapSet m t.id (f t)) m0)).map Prod.fst).Nodup := by
  intro l
  induction l with
  | nil => intro m0 h; exact h
  | cons t l2 ih =>
    intro m0 h
    rw [List.foldl_cons]
    exact ih _ (nodupKeys_mapSet h t.id (f t))

/-- C3: the merge returns exactly the identifier-keyed map built by
inserting every local record and then overwriting with every remote
record: the result carries pairwise-distinct identifiers, and for every
identifier `k` the record found in the result is the last remote record
with that identifier with its `synced` flag forced to `true`, or, when no
remote record has it, the last local record with that identifier,
unchanged. -/
theorem mergeTips_characterization (locals remotes : List Tip) :
    ((mergeTips locals remotes).map Tip.id).Nodup ∧
    ∀ k : Str, (mergeTips locals remotes).find? (fun t => t.id = k)
      = match lastById remotes k with
        | some t => some (setSynced t)
        | none => lastById locals k := by
  have hwf1 : wfMap (locals.foldl (fun m t => mapSet m t.id t) []) := by
    have := wfMap_foldl id (fun _ => rfl) locals [] (by intro p hp; simp at hp)
    simpa using this
  have hwf2 : wfMap ((remotes.foldl (fun m t => mapSet m t.id (setSynced t))
      (locals.foldl (fun m t => mapSet m t.id t) []))) :=
    wfMap_foldl setSynced (fun _ => rfl) remotes _ hwf1
  have hkeys : (((remotes.foldl (fun m t => mapSet m t.id (setSynced t))
      (locals.foldl (fun m t => mapSet m t.id t) []))).map Prod.fst).Nodup :=
    nodupKeys_foldl setSynced remotes _
      (nodupKeys_foldl id locals [] (by simp))
  constructor
  · simp only [mergeTips]
    rw [List.map_map]
    have heq : ((remotes.foldl (fun m t => mapSet m t.id (setSynced t))
        (locals.foldl (fun m t => mapSet m t.id t) []))).map (Tip.id ∘ fun p => p.2)
        = ((remotes.foldl (fun m t => mapSet m t.id (setSynced t))
        (locals.foldl (fun m t => mapSet m t.id t) []))).map Prod.fst := by
      apply List.map_congr_left
      intro p hp
      exact hwf2 p hp
    rw [heq]
    exact hkeys
  · intro k
    simp only [mergeTips]
    rw [List.find?_map]
    have hcongr : (List.find? ((fun t => decide (t.id = k)) ∘ fun p : Str × Tip => p.2)
        ((remotes.foldl (fun m t => mapSet m t.id (setSynced t))
          (locals.foldl (fun m t => mapSet m t.id t) []))))
        = (List.find? (fun p => p.1 = k)
        ((remotes.foldl (fun m t => mapSet m t.id (setSynced t))
          (locals.foldl (fun m t => mapSet m t.id t) [])))) := by
      apply find?_congr_mem
      intro p hp
      simp [Function.comp, hwf2 p hp]
    have hloc := find?_foldl_mapSet id locals [] k
    simp only [id_eq] at hloc
    rw [hcongr, find?_foldl_mapSet setSynced remotes _ k, hloc]
    cases hr : lastById remotes k with
    | some t => rfl
    | none =>
      cases hl : lastById locals k with
      | some t => simp [List.find?]
      | none => simp [List.find?]

theorem any_congr_mem {α : Type} (P Q : α → Bool) :
    ∀ (l : List α), (∀ x ∈ l, P x = Q x) → l.any P = l.any Q := by
  intro l
  induction l with
  | nil => intro _; rfl
  | cons x l2 ih =>
    intro h
    rw [List.any_cons, List.any_cons, h x (by simp), ih fun y hy => h y (by simp [hy])]

theorem foldl_ins_fresh :
    ∀ (S : List Tip) (m0 : List (Str × Tip)), (S.map Tip.id).Nodup →
    (∀ t ∈ S, m0.any (fun p => p.1 = t.id) = false) →
    S.foldl (fun m t => mapSet m t.id t) m0 = m0 ++ S.map (fun t => (t.id, t)) := by
  intro S
  induction S with
  | nil => intro m0 _ _; simp
  | cons t S2 ih =>
    intro m0 hnd hfresh
    have hnd2 : (∀ x ∈ S2, ¬ x.id = t.id) ∧ (S2.map Tip.id).Nodup := by simpa using hnd
    rw [List.foldl_cons]
    have h1 : mapSet m0 t.id t = m0 ++ [(t.id, t)] := by
      unfold mapSet
      rw [hfresh t (by simp)]
      simp
    rw [h1, ih (m0 ++ [(t.id, t)]) hnd2.2 ?fresh2]
    · simp
    case fresh2 =>
      intro u hu
      rw [List.any_append]
      have hm0 : m0.any (fun p => p.1 = u.id) = false := hfresh u (by simp [hu])
      have htu : ¬ t.id = u.id := fun heq => hnd2.1 u hu heq.symm
      simp [hm0, htu]

theorem foldl_upd_as_map :
    ∀ (S : List Tip) (m : List (Str × Tip)),
    (∀ t ∈ S, m.any (fun p => p.1 = t.id) = true) →
    S.foldl (fun m t => mapSet m t.id (setSynced t)) m
      = m.map (fun p => S.foldl
          (fun q t => if q.1 = t.id then (t.id, setSynced t) else q) p) := by
  intro S
  induction S with
  | nil => intro m _; simp
  | cons t S2 ih =>
    intro m hmem
    rw [List.foldl_cons]
    have h1 : mapSet m t.id (setSynced t)
        = m.map (fun p => if p.1 = t.id then (t.id, setSynced t) else p) := by
      unfold mapSet
      rw [hmem t (by simp)]
      simp
    rw [h1, ih _ ?hmem2, List.map_map]
    · apply List.map_congr_left
      intro p _
      simp [Function.comp, List.foldl_cons]
    case hmem2 =>
      intro u hu
      rw [List.any_map]
      rw [any_congr_mem _ (fun p => decide (p.1 = u.id)) m ?pointwise]
      · exact hmem u (by simp [hu])
      case pointwise =>
        intro p _
        simp only [Function.comp]
        by_cases hpk : p.1 = t.id
        · simp [hpk]
        · simp [hpk]

theorem foldl_upd_nomatch (p : Str × Tip) :
    ∀ (S : List Tip), (∀ t ∈ S, ¬ p.1 = t.id) →
    S.foldl (fun q t => if q.1 = t.id then (t.id, setSynced t) else q) p = p := by
  intro S
  induction S with
  | nil => intro _; rfl
  | cons t S2 ih =>
    intro h
    rw [List.foldl_cons, if_neg (h t (by simp))]
    exact ih fun u hu => h u (by simp [hu])

theorem foldl_upd_point :
    ∀ (S : List Tip), (S.map Tip.id).Nodup → ∀ s ∈ S,
    S.foldl (fun q t => if q.1 = t.id then (t.id, setSynced t) else q) (s.id, s)
      = (s.id, setSynced s) := by
  intro S
  induction S with
  | nil => intro _ s hs; simp at hs
  | cons t S2 ih =>
    intro hnd s hs
    have hnd2 : (∀ x ∈ S2, ¬ x.id = t.id) ∧ (S2.map Tip.id).Nodup := by simpa using hnd
    rw [List.foldl_cons]
    rcases List.mem_cons.1 hs with rfl | hs2
    · rw [if_pos rfl]
      apply foldl_upd_nomatch
      intro u hu heq
      exact hnd2.1 u hu heq.symm
    · have hne : ¬ s.id = t.id := hnd2.1 s hs2
      rw [if_neg hne]
      exact ih hnd2.2 s hs2

set_option maxRecDepth 10000 in
/-- Counterexample to C4 as stated: merging a one-record collection with
itself does not return the same collection when the record is unsynced,
because the merge forces `synced := true` on every remote record. -/
theorem merge_self_not_identity :
    mergeTips [⟨['a'], 1, ['d'], none, some false⟩] [⟨['a'], 1, ['d'], none, some false⟩]
      ≠ [⟨['a'], 1, ['d'], none, some false⟩] := by
  decide

/-- C4 amended: for every tip collection with pairwise-distinct
identifiers, merging it with itself yields the same collection with every
record's `synced` flag forced to `true` (so it is the identity exactly on
already-synced collections). -/
theorem merge_self_syncs (S : List Tip) (hnd : (S.map Tip.id).Nodup) :
    mergeTips S S = S.map setSynced := by
  simp only [mergeTips]
  rw [foldl_ins_fresh S [] hnd (by simp)]
  simp only [List.nil_append]
  rw [foldl_upd_as_map S _ ?hmem]
  case hmem =>
    intro t ht
    exact List.any_eq_true.2 ⟨(t.id, t), List.mem_map.2 ⟨t, ht, rfl⟩, by simp⟩
  rw [List.map_map, List.map_map]
  apply List.map_congr_left
  intro s hs
  simp only [Function.comp]
  rw [foldl_upd_point S hnd s hs]

set_option maxRecDepth 10000 in
/-- Closed instance of `merge_self_syncs` at a concrete two-record
collection. -/
theorem merge_self_syncs_witness :
    ((([⟨['a'], 1, ['d'], none, some false⟩, ⟨['b'], 2, ['e'], none, some true⟩]
        : List Tip).map Tip.id).Nodup) ∧
    mergeTips [⟨['a'], 1, ['d'], none, some false⟩, ⟨['b'], 2, ['e'], none, some true⟩]
        [⟨['a'], 1, ['d'], none, some false⟩, ⟨['b'], 2, ['e'], none, some true⟩]
      = [⟨['a'], 1, ['d'], none, some true⟩, ⟨['b'], 2, ['e'], none, some true⟩] :=
  ⟨by decide, by
    rw [merge_self_syncs _ (by decide)]
    decide⟩

/-- `TipsDatabase.markAsSynced`: flip the `synced` flag of the record
with the given identifier (the store is keyed by `id`). -/
def markAsSynced (tips : List Tip) (i : Str) : List Tip :=
  tips.map (fun u => if u.id = i then setSynced u else u)

/-- State of the Sync Coordinator: the single-flight flag and the local
tip database. -/
structure SyncState where
  syncInProgress : Bool
  tips : List Tip
deriving DecidableEq, Repr

/-- Observable steps of one `sync()` call, in program order. -/
inductive SyncEv where
  | flagSet
  | readLocal (tips : List Tip)
  | push (tips : List Tip)
  | marked (i : Str)
  | flagCleared
  | raised
deriving DecidableEq, Repr

/-- `SyncService.sync` (`src/lib/sync.ts`): return immediately when a
sync is in progress; otherwise set the flag, read the full local tip set,
POST it to the sync route (`pushOk` models whether that push succeeds),
on success mark every not-yet-synced record as synced, and clear the flag
in the `finally` block; a push failure is re-raised after the flag is
cleared. -/
def syncRun (s : SyncState) (pushOk : Bool) : SyncState × List SyncEv :=
  if s.syncInProgress then (s, [])
  else
    let localTips := s.tips
    if pushOk then
      let db2 := localTips.foldl
        (fun db t => if t.synced = some true then db else markAsSynced db t.id) localTips
      ({ syncInProgress := false, tips := db2 },
        [SyncEv.flagSet, SyncEv.readLocal localTips, SyncEv.push localTips]
          ++ (localTips.filter (fun t => ¬ t.synced = some true)).map
              (fun t => SyncEv.marked t.id)
          ++ [SyncEv.flagCleared])
    else
      ({ syncInProgress := false, tips := localTips },
        [SyncEv.flagSet, SyncEv.readLocal localTips, SyncEv.push localTips,
          SyncEv.flagCleared, SyncEv.raised])

theorem setSynced_of_synced {t : Tip} (h : t.synced = some true) : setSynced t = t := by
  cases t
  simp only [setSynced]
  simp at h
  simp [h]

theorem foldl_mark_stable :
    ∀ (L : List Tip) (x : Tip), x.synced = some true →
    L.foldl (fun u t => if t.synced = some true then u
      else if u.id = t.id then setSynced u else u) x = x := by
  intro L
  induction L with
  | nil => intro x _; rfl
  | cons t L2 ih =>
    intro x hx
    rw [List.foldl_cons]
    by_cases ht : t.synced = some true
    · rw [if_pos ht]
      exact ih x hx
    · rw [if_neg ht]
      by_cases hid : x.id = t.id
      · rw [if_pos hid, setSynced_of_synced hx]
        exact ih x hx
      · rw [if_neg hid]
        exact ih x hx

theorem foldl_mark_point :
    ∀ (L : List Tip) (u : Tip),
    (u.synced = some true ∨ ∃ t ∈ L, ¬ t.synced = some true ∧ t.id = u.id) →
    L.foldl (fun u t => if t.synced = some true then u
      else if u.id = t.id then setSynced u else u) u = setSynced u := by
  intro L
  induction L with
  | nil =>
    intro u h
    rcases h with h | ⟨t, ht, -⟩
    · exact (setSynced_of_synced h).symm
    · simp at ht
  | cons t L2 ih =>
    intro u h
    rw [List.foldl_cons]
    by_cases ht : t.synced = some true
    · rw [if_pos ht]
      apply ih
      rcases h with h | ⟨w, hw, hw1, hw2⟩
      · exact Or.inl h
      · rcases List.mem_cons.1 hw with rfl | hw3
        · exact absurd ht hw1
        · exact Or.inr ⟨w, hw3, hw1, hw2⟩
    · rw [if_neg ht]
      by_cases hid : u.id = t.id
      · rw [if_pos hid]
        exact foldl_mark_stable L2 (setSynced u) rfl
      · rw [if_neg hid]
        apply ih
        rcases h with h | ⟨w, hw, hw1, hw2⟩
        · exact Or.inl h
        · rcases List.mem_cons.1 hw with rfl | hw3
          · exact absurd hw2.symm hid
          · exact Or.inr ⟨w, hw3, hw1, hw2⟩

theorem foldl_mark_as_map :
    ∀ (L M : List Tip),
    L.foldl (fun db t => if t.synced = some true then db else markAsSynced db t.id) M
      = M.map (fun u => L.foldl (fun u t => if t.synced = some true then u
          else if u.id = t.id then setSynced u else u) u) := by
  intro L
  induction L with
  | nil => intro M; simp
  | cons t L2 ih =>
    intro M
    rw [List.foldl_cons]
    by_cases ht : t.synced = some true
    · rw [if_pos ht, ih]
      apply List.map_congr_left
      intro u _
      rw [List.foldl_cons, if_pos ht]
    · rw [if_neg ht]
      have h1 : markAsSynced M t.id = M.map (fun u => if u.id = t.id then setSynced u else u) :=
        rfl
      rw [h1, ih, List.map_map]
      apply List.map_congr_left
      intro u _
      simp only [Function.comp]
      rw [List.foldl_cons, if_neg ht]

theorem sync_marks_all (L : List Tip) :
    L.foldl (fun db t => if t.synced = some true then db
      else markAsSynced db t.id) L = L.map setSynced := by
  rw [foldl_mark_as_map]
  apply List.map_congr_left
  intro u hu
  apply foldl_mark_point
  by_cases hu2 : u.synced = some true
  · exact Or.inl hu2
  · exact Or.inr ⟨u, hu, hu2, rfl⟩

/-- C5: when a sync is already in progress, `sync()` returns immediately
with no read and no push; otherwise the flag is set first, the full local
tip set is pushed, the flag ends (and is observably) cleared in every
outcome; on success every previously-unsynced record is marked synced (so
afterwards the whole database is synced) and on failure the database is
unchanged and the failure is re-raised after the flag is cleared. -/
theorem sync_single_flight_contract (s : SyncState) (pushOk : Bool) :
    (s.syncInProgress = true → syncRun s pushOk = (s, [])) ∧
    (s.syncInProgress = false →
      (syncRun s pushOk).2.head? = some SyncEv.flagSet ∧
      SyncEv.push s.tips ∈ (syncRun s pushOk).2 ∧
      (syncRun s pushOk).1.syncInProgress = false ∧
      SyncEv.flagCleared ∈ (syncRun s pushOk).2 ∧
      (pushOk = true →
        (syncRun s pushOk).1.tips = s.tips.map setSynced ∧
        (syncRun s pushOk).2.getLast? = some SyncEv.flagCleared ∧
        ∀ t ∈ s.tips, ¬ t.synced = some true →
          SyncEv.marked t.id ∈ (syncRun s pushOk).2) ∧
      (pushOk = false →
        (syncRun s pushOk).1.tips = s.tips ∧
        (syncRun s pushOk).2.getLast? = some SyncEv.raised)) := by
  constructor
  · intro h
    unfold syncRun
    rw [if_pos h]
  · intro h
    unfold syncRun
    rw [if_neg (by rw [h]; exact Bool.false_ne_true)]
    cases pushOk
    · refine ⟨rfl, by simp, rfl, by simp, fun hc => absurd hc (by simp), fun _ => ⟨rfl, rfl⟩⟩
    · refine ⟨rfl, by simp, rfl, by simp, fun _ => ⟨?_, ?_, ?_⟩, fun hc => absurd hc (by simp)⟩
      · exact sync_marks_all s.tips
      · simp only [← List.cons_append]
        exact List.getLast?_concat _
      · intro t ht hts
        have hmem : SyncEv.marked t.id ∈
            (s.tips.filter (fun t => ¬ t.synced = some true)).map
              (fun t => SyncEv.marked t.id) :=
          List.mem_map.2 ⟨t, List.mem_filter.2 ⟨ht, by simpa using hts⟩, rfl⟩
        exact List.mem_cons.2 (Or.inr (List.mem_cons.2 (Or.inr (List.mem_cons.2
          (Or.inr (List.mem_append.2 (Or.inl hmem)))))))

/-- Closed instance of `sync_single_flight_contract`: a busy state is a
no-op, an idle state with one unsynced tip gets it marked synced on a
successful push, and a failed push ends by re-raising after the flag is
cleared. -/
theorem sync_single_flight_contract_witness :
    ((⟨true, []⟩ : SyncState).syncInProgress = true ∧
      syncRun ⟨true, []⟩ true = (⟨true, []⟩, [])) ∧
    ((⟨false, [⟨['a'], 5, ['d'], none, some false⟩]⟩ : SyncState).syncInProgress = false ∧
      (syncRun ⟨false, [⟨['a'], 5, ['d'], none, some false⟩]⟩ true).1.tips
        = [⟨['a'], 5, ['d'], none, some true⟩]) ∧
    (syncRun ⟨false, [⟨['a'], 5, ['d'], none, some false⟩]⟩ false).2.getLast?
      = some SyncEv.raised := by
  refine ⟨⟨rfl, (sync_single_flight_contract ⟨true, []⟩ true).1 rfl⟩, ⟨rfl, ?_⟩, ?_⟩
  · rw [(((sync_single_flight_contract ⟨false, [⟨['a'], 5, ['d'], none, some false⟩]⟩
      true).2 rfl).2.2.2.2.1 rfl).1]
    decide
  · exact (((sync_single_flight_contract ⟨false, [⟨['a'], 5, ['d'], none, some false⟩]⟩
      false).2 rfl).2.2.2.2.2 rfl).2

/-- `MonthlyTotal` record of the monthly cache and the monthly route;
amounts are modelled as rationals. -/
structure MonthlyTotal where
  month : Str
  totalAmount : Rat
  numberOfTransfers : Nat
deriving DecidableEq, Repr

/-- `CacheEntry` of `MonthlyCacheService`: key, payload, creation time
and expiry time (milliseconds). -/
structure CacheEntry where
  key : Str
  data : List MonthlyTotal
  timestamp : Nat
  expiresAt : Nat
deriving DecidableEq, Repr

/-- `CACHE_TTL`: 24 hours in milliseconds. -/
def CACHE_TTL : Nat := 24 * 60 * 60 * 1000

/-- The cache object store, keyed by `key` (an IndexedDB `put` replaces
the entry bearing the same key; enumeration order is not relied on by any
claim). -/
abbrev CacheState := List CacheEntry

/-- IndexedDB `put` on the keyed store. -/
def cachePut (st : CacheState) (e : CacheEntry) : CacheState :=
  if st.any (fun x => x.key = e.key) then st.map (fun x => if x.key = e.key then e else x)
  else st ++ [e]

/-- `MonthlyCacheService.delete`. -/
def cacheDelete (st : CacheState) (k : Str) : CacheState :=
  st.filter (fun x => ¬ x.key = k)

/-- `MonthlyCacheService.set`: store the payload under `key` with
`expiresAt = now + CACHE_TTL`. -/
def cacheSet (st : CacheState) (now : Nat) (k : Str) (d : List MonthlyTotal) : CacheState :=
  cachePut st ⟨k, d, now, now + CACHE_TTL⟩

/-- `MonthlyCacheService.get`: a missing entry yields `null`; an entry
whose expiry has passed (`expiresAt < Date.now()`) is deleted and yields
`null`; otherwise the payload is returned. Returns the result and the
store afterwards. -/
def cacheGet (st : CacheState) (now : Nat) (k : Str) :
    Option (List MonthlyTotal) × CacheState :=
  match st.find? (fun x => x.key = k) with
  | none => (none, st)
  | some e => if e.expiresAt < now then (none, cacheDelete st k) else (some e.data, st)

theorem find?_cachePut_self (st : CacheState) (e : CacheEntry) :
    (cachePut st e).find? (fun x => x.key = e.key) = some e := by
  unfold cachePut
  split
  · next hany =>
    rw [List.find?_map]
    have hsome : (List.find? ((fun x => decide (x.key = e.key)) ∘
        fun x => if x.key = e.key then e else x) st).isSome := by
      rw [List.find?_isSome]
      obtain ⟨q, hq, hqk⟩ := List.any_eq_true.1 hany
      refine ⟨q, hq, ?_⟩
      simp only [Function.comp]
      simp only [decide_eq_true_eq] at hqk
      simp [hqk]
    cases hfind : List.find? ((fun x => decide (x.key = e.key)) ∘
        fun x => if x.key = e.key then e else x) st with
    | none => rw [hfind] at hsome; simp at hsome
    | some q2 =>
      have hq2 := List.find?_some hfind
      simp only [Function.comp, decide_eq_true_eq] at hq2
      by_cases hk2 : q2.key = e.key
      · simp [hk2]
      · simp [hk2] at hq2
  · next hany =>
    rw [List.find?_append]
    have hnone : st.find? (fun x => x.key = e.key) = none := by
      rw [List.find?_eq_none]
      intro x hx hxk
      exact hany (List.any_eq_true.2 ⟨x, hx, hxk⟩)
    rw [hnone]
    simp [List.find?]

/-- C9: after setting a key (once or twice with the same payload at the
same instant), `get` returns that payload as long as the current time has
not passed the entry's expiry, which is the creation time plus the fixed
TTL; once the current time exceeds the expiry, `get` returns absent and
deletes the entry, so no entry with that key remains in the store. -/
theorem cache_set_get_ttl (st : CacheState) (t0 t1 : Nat) (k : Str) (d : List MonthlyTotal) :
    (t1 ≤ t0 + CACHE_TTL →
      cacheGet (cacheSet (cacheSet st t0 k d) t0 k d) t1 k
        = (some d, cacheSet (cacheSet st t0 k d) t0 k d)) ∧
    (t0 + CACHE_TTL < t1 →
      (cacheGet (cacheSet (cacheSet st t0 k d) t0 k d) t1 k).1 = none ∧
      ∀ e ∈ (cacheGet (cacheSet (cacheSet st t0 k d) t0 k d) t1 k).2, ¬ e.key = k) := by
  have hfind : (cacheSet (cacheSet st t0 k d) t0 k d).find? (fun x => x.key = k)
      = some ⟨k, d, t0, t0 + CACHE_TTL⟩ :=
    find?_cachePut_self (cacheSet st t0 k d) ⟨k, d, t0, t0 + CACHE_TTL⟩
  have hred : cacheGet (cacheSet (cacheSet st t0 k d) t0 k d) t1 k
      = if t0 + CACHE_TTL < t1
        then (none, cacheDelete (cacheSet (cacheSet st t0 k d) t0 k d) k)
        else (some d, cacheSet (cacheSet st t0 k d) t0 k d) := by
    unfold cacheGet
    rw [hfind]
  constructor
  · intro h1
    rw [hred, if_neg (by omega)]
  · intro h1
    rw [hred, if_pos h1]
    refine ⟨rfl, ?_⟩
    intro e he
    have := List.mem_filter.1 he
    simpa using this.2

/-- Closed instance of `cache_set_get_ttl`: with creation time `0`, the
payload is still returned at the expiry instant and is absent and evicted
one millisecond later. -/
theorem cache_set_get_ttl_witness :
    (CACHE_TTL ≤ 0 + CACHE_TTL ∧
      cacheGet (cacheSet (cacheSet [] 0 ['k'] []) 0 ['k'] []) CACHE_TTL ['k']
        = (some [], cacheSet (cacheSet [] 0 ['k'] []) 0 ['k'] [])) ∧
    (0 + CACHE_TTL < CACHE_TTL + 1 ∧
      (cacheGet (cacheSet (cacheSet [] 0 ['k'] []) 0 ['k'] []) (CACHE_TTL + 1) ['k']).1
        = none) :=
  ⟨⟨by omega, (cache_set_get_ttl [] 0 CACHE_TTL ['k'] []).1 (by omega)⟩,
   ⟨by omega, ((cache_set_get_ttl [] 0 (CACHE_TTL + 1) ['k'] []).2 (by omega)).1⟩⟩

/-- A calendar month of a given year, as the monthly aggregation uses it. -/
structure MonthDate where
  year : Nat
  month : Fin 12
deriving DecidableEq, Repr

/-- A transfer extracted by the monthly route: an amount and the month of
its `Date` header. -/
structure MTransfer where
  amount : Rat
  date : MonthDate
deriving DecidableEq, Repr

/-- Outcome of one Gmail `messages.get` call inside `processEmail`:
either a successfully fetched message (parsed to a transfer, or `none`
when the date header or amount is missing) or an HTTP error status. -/
inductive EmailRes where
  | ok (v : Option MTransfer)
  | err (status : Nat)
deriving DecidableEq, Repr

/-- `BATCH_SIZE` of the monthly route. -/
def BATCH_SIZE : Nat := 10

/-- `MAX_RETRIES` of the monthly route. -/
def MAX_RETRIES : Nat := 3

/-- The retry loop of `processEmail`: `att i` is the outcome of the
`i`-th fetch attempt of this message; on a 429 failure the code waits
`2^retry` seconds and retries while `retry < MAX_RETRIES`, and any other
failure, or a 429 with the budget exhausted, propagates. The `budget`
fuel only bounds the recursion; with `budget = MAX_RETRIES + 1 - retry`
it is never exhausted (its fallback agrees with the source, which throws
the 429 whenever `retry` is out of budget). -/
def processEmailGo (att : Nat → EmailRes) : Nat → Nat → EmailRes
  | _, 0 => EmailRes.err 429
  | retry, b + 1 =>
    match att retry with
    | EmailRes.ok v => EmailRes.ok v
    | EmailRes.err s =>
      if s = 429 then
        if retry < MAX_RETRIES then processEmailGo att (retry + 1) b else EmailRes.err s
      else EmailRes.err s

/-- `processEmail` starting at retry count `0`. -/
def processEmail (att : Nat → EmailRes) : EmailRes :=
  processEmailGo att 0 (MAX_RETRIES + 1)

/-- The fulfilled value of one settled fetch, `null` results and
rejections giving nothing. -/
def fetched (r : EmailRes) : Option MTransfer :=
  match r with
  | EmailRes.ok v => v
  | EmailRes.err _ => none

/-- `processBatch`: the `Promise.allSettled` results of one batch; a
rate-limited rejection anywhere escalates to a thrown 429, any other
rejection is dropped, and the fulfilled non-null values are returned. -/
def processBatch (rs : List EmailRes) : Except Nat (List MTransfer) :=
  if rs.any (fun r => r = EmailRes.err 429) then Except.error 429
  else Except.ok (rs.filterMap fetched)

/-- The batching loop `for (let i = 0; i < messages.length; i += BATCH_SIZE)`
with `messages.slice(i, i + BATCH_SIZE)`; `fuel` only bounds the
recursion and `chunks` supplies enough. -/
def chunksAux {α : Type} : Nat → List α → List (List α)
  | 0, _ => []
  | fuel + 1, l => if l.isEmpty then [] else l.take BATCH_SIZE :: chunksAux fuel (l.drop BATCH_SIZE)

/-- The batches the monthly route issues for a list of identifiers. -/
def chunks {α : Type} (l : List α) : List (List α) := chunksAux (l.length + 1) l

/-- Sequential processing of the batches: on a 429 escalation the
remaining batches are not issued. Returns the accumulated transfers (or
the 429 error) together with the number of batches issued. -/
def runBatches {α : Type} (att : α → Nat → EmailRes) :
    List (List α) → Except Nat (List MTransfer) × Nat
  | [] => (Except.ok [], 0)
  | b :: bs =>
    match processBatch (b.map (fun x => processEmail (att x))) with
    | Except.error e => (Except.error e, 1)
    | Except.ok vs =>
      match runBatches att bs with
      | (Except.ok rest, n) => (Except.ok (vs ++ rest), n + 1)
      | (Except.error e, n) => (Except.error e, n + 1)

/-- The whole batch pipeline of the monthly route `GET` handler. -/
def pipeline {α : Type} (ids : List α) (att : α → Nat → EmailRes) :
    Except Nat (List MTransfer) × Nat :=
  runBatches att (chunks ids)

/-- The HTTP response the monthly route derives from the pipeline
outcome: data, the dedicated 429 "try again in a few minutes" response,
or the generic 500. -/
inductive MonthlyResp where
  | payload (transfers : List MTransfer)
  | tooManyRequests
  | serverError
deriving DecidableEq, Repr

/-- Mapping of the pipeline outcome to the route's response. -/
def routeOutcome (r : Except Nat (List MTransfer)) : MonthlyResp :=
  match r with
  | Except.ok vs => MonthlyResp.payload vs
  | Except.error 429 => MonthlyResp.tooManyRequests
  | Except.error _ => MonthlyResp.serverError

theorem chunksAux_spec {α : Type} :
    ∀ (fuel : Nat) (l : List α), l.length < fuel →
    (chunksAux fuel l).flatten = l ∧
    (∀ c ∈ chunksAux fuel l, c ≠ [] ∧ c.length ≤ BATCH_SIZE) ∧
    (∀ i, i + 1 < (chunksAux fuel l).length →
      ∃ c, (chunksAux fuel l)[i]? = some c ∧ c.length = BATCH_SIZE) := by
  intro fuel
  induction fuel with
  | zero => intro l h; omega
  | succ f ih =>
    intro l hl
    rw [chunksAux]
    cases l with
    | nil => simp
    | cons x xs =>
      simp only [List.isEmpty_cons, if_false, Bool.false_eq_true]
      have hlen : ((x :: xs).drop BATCH_SIZE).length < f := by
        simp only [List.length_drop, List.length_cons]
        simp only [List.length_cons] at hl
        have : 0 < BATCH_SIZE := by decide
        omega
      obtain ⟨ihj, ihs, ihl⟩ := ih ((x :: xs).drop BATCH_SIZE) hlen
      refine ⟨?_, ?_, ?_⟩
      · rw [List.flatten_cons, ihj, List.take_append_drop]
      · intro c hc
        rcases List.mem_cons.1 hc with rfl | hc2
        · refine ⟨by simp [BATCH_SIZE], by simp [List.length_take]⟩
        · exact ihs c hc2
      · intro i hi
        cases i with
        | zero =>
          refine ⟨(x :: xs).take BATCH_SIZE, by simp, ?_⟩
          simp only [List.length_cons, List.length_take]
          have hrest : chunksAux f ((x :: xs).drop BATCH_SIZE) ≠ [] := by
            intro hnil
            simp only [hnil, List.length_cons, List.length_nil] at hi
            omega
          have hrest2 : (x :: xs).drop BATCH_SIZE ≠ [] := by
            intro hnil
            cases f with
            | zero => simp at hlen
            | succ f2 =>
              rw [chunksAux, hnil] at hrest
              simp at hrest
          have hlt : BATCH_SIZE < xs.length + 1 := by
            by_contra hge
            refine hrest2 (List.drop_eq_nil_of_le ?_)
            simp only [List.length_cons]
            omega
          omega
        | succ i2 =>
          simp only [List.length_cons] at hi
          obtain ⟨c, hc1, hc2⟩ := ihl i2 (by omega)
          exact ⟨c, by simpa using hc1, hc2⟩

theorem chunks_spec {α : Type} (l : List α) :
    (chunks l).flatten = l ∧
    (∀ c ∈ chunks l, c ≠ [] ∧ c.length ≤ BATCH_SIZE) ∧
    (∀ i, i + 1 < (chunks l).length →
      ∃ c, (chunks l)[i]? = some c ∧ c.length = BATCH_SIZE) :=
  chunksAux_spec (l.length + 1) l (Nat.lt_succ_self _)

theorem processBatch_ok {α : Type} (att : α → Nat → EmailRes) (b : List α)
    (hb : ∀ x ∈ b, ¬processEmail (att x) = EmailRes.err 429) :
    processBatch (b.map (fun x => processEmail (att x))) =
      Except.ok (b.filterMap (fun x => fetched (processEmail (att x)))) := by
  unfold processBatch
  rw [if_neg, List.filterMap_map]
  · rfl
  · intro hex
    rw [List.any_eq_true] at hex
    obtain ⟨r, hr, hp⟩ := hex
    obtain ⟨x, hx, rfl⟩ := List.mem_map.1 hr
    exact hb x hx (by simpa using hp)

theorem runBatches_no429 {α : Type} (att : α → Nat → EmailRes) :
    ∀ bs : List (List α),
    (∀ x ∈ bs.flatten, ¬processEmail (att x) = EmailRes.err 429) →
    runBatches att bs =
      (Except.ok (bs.flatten.filterMap (fun x => fetched (processEmail (att x)))),
        bs.length) := by
  intro bs
  induction bs with
  | nil => intro _; rfl
  | cons b bs ih =>
    intro h
    have hb : ∀ x ∈ b, ¬processEmail (att x) = EmailRes.err 429 := by
      intro x hx
      exact h x (by rw [List.flatten_cons]; exact List.mem_append.2 (Or.inl hx))
    have hne : ∀ x ∈ bs.flatten, ¬processEmail (att x) = EmailRes.err 429 := by
      intro x hx
      exact h x (by rw [List.flatten_cons]; exact List.mem_append.2 (Or.inr hx))
    rw [runBatches, processBatch_ok att b hb, ih hne, List.flatten_cons,
      List.filterMap_append]
    rfl

/-- C7: the batch pipeline slices the identifier list into sequential
batches of exactly `BATCH_SIZE = 10` (the final batch possibly smaller),
losing and duplicating nothing; 23 identifiers give exactly the batches
10, 10, 3; within a batch the join settles each fetch independently, so
a non-rate-limit failure of one fetch is dropped without affecting its
siblings; and when no fetch ends rate-limited, every batch is issued and
the fulfilled transfers are returned in order. -/
theorem batch_pipeline_contract {α : Type} (ids : List α) :
    (chunks ids).flatten = ids ∧
    (∀ c ∈ chunks ids, c ≠ [] ∧ c.length ≤ BATCH_SIZE) ∧
    (∀ i, i + 1 < (chunks ids).length →
      ∃ c, (chunks ids)[i]? = some c ∧ c.length = BATCH_SIZE) ∧
    (chunks (List.range 23)).map List.length = [10, 10, 3] ∧
    (∀ (rs1 rs2 : List EmailRes) (c : Nat), ¬c = 429 →
      processBatch (rs1 ++ EmailRes.err c :: rs2) = processBatch (rs1 ++ rs2)) ∧
    (∀ att : α → Nat → EmailRes,
      (∀ x ∈ ids, ¬processEmail (att x) = EmailRes.err 429) →
      pipeline ids att =
        (Except.ok (ids.filterMap (fun x => fetched (processEmail (att x)))),
          (chunks ids).length)) := by
  obtain ⟨h1, h2, h3⟩ := chunks_spec ids
  refine ⟨h1, h2, h3, by decide, ?_, ?_⟩
  · intro rs1 rs2 c hc
    unfold processBatch
    have hme : (EmailRes.err c = EmailRes.err 429) = False := by
      simp [hc]
    simp only [List.any_append, List.any_cons, List.filterMap_append,
      List.filterMap_cons, hme, decide_False, Bool.false_or, fetched]
  · intro att hatt
    have h4 := runBatches_no429 att (chunks ids) (by rw [h1]; exact hatt)
    show runBatches att (chunks ids) = _
    rw [h4, h1]

/-- An attempt function on which every fetch succeeds at once with an
empty payload. -/
def attOk {α : Type} : α → Nat → EmailRes := fun _ _ => EmailRes.ok none

theorem batch_pipeline_contract_witness :
    processBatch [EmailRes.ok none, EmailRes.err 500] =
      processBatch [EmailRes.ok none] ∧
    pipeline (List.range 23) (attOk (α := Nat)) = (Except.ok [], 3) := by
  constructor
  · have h := (batch_pipeline_contract ([] : List Nat)).2.2.2.2.1
      [EmailRes.ok none] [] 500 (by decide)
    simpa using h
  · have h := (batch_pipeline_contract (List.range 23)).2.2.2.2.2
      (attOk (α := Nat)) (by
        intro x hx
        show ¬EmailRes.ok none = EmailRes.err 429
        simp)
    rw [h]
    rfl

theorem processEmailGo_retry (att : Nat → EmailRes) (retry b : Nat)
    (ha : att retry = EmailRes.err 429) (hr : retry < MAX_RETRIES) :
    processEmailGo att retry (b + 1) = processEmailGo att (retry + 1) b := by
  rw [processEmailGo, ha]
  show (if (429 : Nat) = 429 then
      if retry < MAX_RETRIES then processEmailGo att (retry + 1) b
      else EmailRes.err 429
    else EmailRes.err 429) = processEmailGo att (retry + 1) b
  rw [if_pos rfl, if_pos hr]

theorem processEmailGo_stop (att : Nat → EmailRes) (b : Nat)
    (ha : att MAX_RETRIES = EmailRes.err 429) :
    processEmailGo att MAX_RETRIES (b + 1) = EmailRes.err 429 := by
  rw [processEmailGo, ha]
  show (if (429 : Nat) = 429 then
      if MAX_RETRIES < MAX_RETRIES then processEmailGo att (MAX_RETRIES + 1) b
      else EmailRes.err 429
    else EmailRes.err 429) = EmailRes.err 429
  rw [if_pos rfl, if_neg (by omega)]

theorem processEmail_persistent (att : Nat → EmailRes)
    (h : ∀ i, i ≤ MAX_RETRIES → att i = EmailRes.err 429) :
    processEmail att = EmailRes.err 429 := by
  have h0 := h 0 (by decide)
  have h1 := h 1 (by decide)
  have h2 := h 2 (by decide)
  have h3 := h 3 (by decide)
  have e1 : processEmailGo att 0 4 = processEmailGo att 1 3 :=
    processEmailGo_retry att 0 3 h0 (by decide)
  have e2 : processEmailGo att 1 3 = processEmailGo att 2 2 :=
    processEmailGo_retry att 1 2 h1 (by decide)
  have e3 : processEmailGo att 2 2 = processEmailGo att 3 1 :=
    processEmailGo_retry att 2 1 h2 (by decide)
  have e4 : processEmailGo att 3 1 = EmailRes.err 429 :=
    processEmailGo_stop att 0 h3
  show processEmailGo att 0 (MAX_RETRIES + 1) = EmailRes.err 429
  exact e1.trans (e2.trans (e3.trans e4))

theorem processBatch_error {rs : List EmailRes} {e : Nat}
    (h : processBatch rs = Except.error e) : e = 429 := by
  unfold processBatch at h
  by_cases ha : rs.any (fun r => r = EmailRes.err 429) = true
  · rw [if_pos ha] at h
    injection h with h2
    exact h2.symm
  · rw [if_neg ha] at h
    cases h

theorem runBatches_429 {α : Type} (att : α → Nat → EmailRes) :
    ∀ bs : List (List α),
    (∃ m ∈ bs.flatten, processEmail (att m) = EmailRes.err 429) →
    (runBatches att bs).1 = Except.error 429 ∧
    1 ≤ (runBatches att bs).2 ∧ (runBatches att bs).2 ≤ bs.length := by
  intro bs
  induction bs with
  | nil => intro h; simp at h
  | cons b bs ih =>
    intro h
    cases hb : processBatch (b.map (fun x => processEmail (att x))) with
    | error e =>
      have he : e = 429 := processBatch_error hb
      subst he
      rw [runBatches, hb]
      refine ⟨rfl, by exact Nat.le_refl 1, ?_⟩
      show 1 ≤ (b :: bs).length
      simp
    | ok vs =>
      have hm : ∃ m ∈ bs.flatten, processEmail (att m) = EmailRes.err 429 := by
        obtain ⟨m, hm1, hm2⟩ := h
        rw [List.flatten_cons] at hm1
        rcases List.mem_append.1 hm1 with hmb | hmf
        · exfalso
          unfold processBatch at hb
          by_cases ha : (b.map (fun x => processEmail (att x))).any
              (fun r => r = EmailRes.err 429) = true
          · rw [if_pos ha] at hb; cases hb
          · exact ha (List.any_eq_true.2
              ⟨processEmail (att m), List.mem_map.2 ⟨m, hmb, rfl⟩, by simp [hm2]⟩)
        · exact ⟨m, hmf, hm2⟩
      obtain ⟨ih1, ih2, ih3⟩ := ih hm
      cases hr : runBatches att bs with
      | mk r n =>
        rw [hr] at ih1 ih2 ih3
        simp only at ih1 ih2 ih3
        subst ih1
        rw [runBatches, hb, hr]
        refine ⟨rfl, by exact Nat.succ_le_succ (Nat.zero_le n), ?_⟩
        show n + 1 ≤ (b :: bs).length
        simp only [List.length_cons]
        omega

/-- C8: if some message's fetch is rate-limited on every attempt its
retry budget allows (initial try plus `MAX_RETRIES = 3` retries), the
pipeline ends with the distinct 429 error — never a partial success and
never a generic failure — mapped by the route to the dedicated
too-many-requests response, and at least one but not all remaining
batches are issued (the loop stops at the first escalating batch). -/
theorem rate_limit_escalation {α : Type} (ids : List α) (att : α → Nat → EmailRes)
    (h : ∃ m ∈ ids, ∀ i, i ≤ MAX_RETRIES → att m i = EmailRes.err 429) :
    (pipeline ids att).1 = Except.error 429 ∧
    routeOutcome (pipeline ids att).1 = MonthlyResp.tooManyRequests ∧
    1 ≤ (pipeline ids att).2 ∧ (pipeline ids att).2 ≤ (chunks ids).length := by
  obtain ⟨m, hm, hpersist⟩ := h
  have hflat : m ∈ (chunks ids).flatten := by
    rw [(chunks_spec ids).1]
    exact hm
  have h429 := processEmail_persistent (att m) hpersist
  obtain ⟨h1, h2, h3⟩ := runBatches_429 att (chunks ids) ⟨m, hflat, h429⟩
  refine ⟨h1, ?_, h2, h3⟩
  show routeOutcome (runBatches att (chunks ids)).1 = MonthlyResp.tooManyRequests
  rw [h1]
  rfl

/-- An attempt function on which the fetch of message `0` succeeds at
once and every other fetch is rate-limited on every attempt. -/
def attBad : Nat → Nat → EmailRes :=
  fun m _ => if m = 0 then EmailRes.ok none else EmailRes.err 429

theorem rate_limit_escalation_witness :
    (pipeline [0, 1] attBad).1 = Except.error 429 ∧
    routeOutcome (pipeline [0, 1] attBad).1 = MonthlyResp.tooManyRequests :=
  have h := rate_limit_escalation [0, 1] attBad
    ⟨1, by decide, fun i _ => rfl⟩
  ⟨h.1, h.2.1⟩

/-- The English month names, in calendar order, as date-fns `'MMMM'`
renders them. -/
def monthNames : List Str :=
  ["January".data, "February".data, "March".data, "April".data,
   "May".data, "June".data, "July".data, "August".data,
   "September".data, "October".data, "November".data, "December".data]

/-- The `'MMMM'` name of a month (`0` = January). -/
def monthName (m : Fin 12) : Str := monthNames.getD m.1 []

/-- date-fns `'yyyy'`: the year's decimal digits zero-padded to at least
four characters. -/
def yearStr (y : Nat) : Str :=
  List.replicate (4 - (natDigits y).length) '0' ++ natDigits y

/-- `format(transfer.date, 'MMMM yyyy')`, the grouping key of the
monthly route. -/
def monthKey (d : MonthDate) : Str := monthName d.month ++ ' ' :: yearStr d.year

/-- Value of a run of decimal digits, most significant first. -/
def digitsVal (s : Str) : Nat := s.foldl (fun a c => a * 10 + (c.toNat - 48)) 0

/-- One candidate month when parsing a label: the label matches month
`m` when it starts with `m`'s name and one space and continues with a
nonempty digit run, the year. -/
def monthCand (s : Str) (m : Fin 12) : Option MonthDate :=
  if s.take (monthName m ++ [' ']).length = monthName m ++ [' '] then
    if (s.drop (monthName m ++ [' ']).length).isEmpty then none
    else if (s.drop (monthName m ++ [' ']).length).all isDigitChar then
      some ⟨digitsVal (s.drop (monthName m ++ [' ']).length), m⟩
    else none
  else none

/-- Model of date-fns `parse(label, 'MMMM yyyy', new Date())`: a label
parses exactly when it is a month name, one space and a nonempty digit
run; any other label is an invalid date. The route only ever parses
labels it produced with `monthKey`, which always parse. -/
def parseMonthLabel (s : Str) : Option MonthDate :=
  (List.finRange 12).findSome? (monthCand s)

/-- `getTime()` of the parsed label, up to monotone rescaling: months
since year 0. A label that fails to parse (never produced by the route)
gets the constant key 0. -/
def timeVal (t : MonthlyTotal) : Nat :=
  match parseMonthLabel t.month with
  | some d => d.year * 12 + d.month.1
  | none => 0

/-- The sort comparator `(a, b) => parse(a.month).getTime() - parse(b.month).getTime()`
as an ordering relation. -/
def byTime (a b : MonthlyTotal) : Prop := timeVal a ≤ timeVal b

instance : DecidableRel byTime := fun a b => Nat.decLe (timeVal a) (timeVal b)

instance : IsTotal MonthlyTotal byTime :=
  ⟨fun a b => Nat.le_total (timeVal a) (timeVal b)⟩

instance : IsTrans MonthlyTotal byTime :=
  ⟨fun _ _ _ h1 h2 => Nat.le_trans h1 h2⟩

/-- One step of the `transfers.forEach` grouping loop: initialize the
month's bucket to zeros on first sight, then add the amount and bump the
count. The accumulator is the string-keyed plain object in insertion
order. -/
def addTransfer (m : List (Str × Rat × Nat)) (key : Str) (amt : Rat) :
    List (Str × Rat × Nat) :=
  if m.any (fun p => p.1 = key) then
    m.map (fun p => if p.1 = key then (p.1, p.2.1 + amt, p.2.2 + 1) else p)
  else m ++ [(key, amt, 1)]

/-- The `monthlyTotals` object after the grouping loop. -/
def groupMonthly (ts : List MTransfer) : List (Str × Rat × Nat) :=
  ts.foldl (fun m t => addTransfer m (monthKey t.date) t.amount) []

/-- `Object.entries(monthlyTotals).map(...).sort(...)`: the route's
response array. `Array.prototype.sort` is stable and the comparator is a
total preorder, so the result is the unique stable sort, which
`insertionSort` computes. -/
def monthlyTotalsArray (ts : List MTransfer) : List MonthlyTotal :=
  List.insertionSort byTime
    ((groupMonthly ts).map (fun p => ⟨p.1, p.2.1, p.2.2⟩))

/-- The client page's zero-valued pre-seed: `eachMonthOfInterval` over
the year, each month formatted with `'MMMM yyyy'` and given zero totals. -/
def zeroMonths (year : Nat) : List MonthlyTotal :=
  (List.finRange 12).map (fun m => ⟨monthKey ⟨year, m⟩, 0, 0⟩)

/-- The client page's merge of the route data into the pre-seed:
`allMonths.map(month => data.find(d => d.month === month.month) || month)`. -/
def clientMergeMonths (year : Nat) (data : List MonthlyTotal) :
    List MonthlyTotal :=
  (zeroMonths year).map (fun z =>
    match data.find? (fun d => d.month = z.month) with
    | some d => d
    | none => z)

theorem names_take_ne :
    ∀ m m2 : Fin 12, (monthName m2).length < (monthName m).length →
    ¬((monthName m).take ((monthName m2).length + 1) = monthName m2 ++ [' ']) := by
  decide

theorem names_inj : ∀ m m2 : Fin 12, monthName m = monthName m2 → m = m2 := by
  decide

theorem take_label (A t : Str) :
    (A ++ ' ' :: t).take (A.length + 1) = A ++ [' '] := by
  rw [List.take_append_eq_append_take, List.take_of_length_le (by omega)]
  congr 1
  have h : A.length + 1 - A.length = 1 := by omega
  rw [h]
  rfl

theorem drop_label (A t : Str) : (A ++ ' ' :: t).drop (A.length + 1) = t := by
  rw [List.drop_append_eq_append_drop, List.drop_of_length_le (by omega)]
  have h : A.length + 1 - A.length = 1 := by omega
  rw [h]
  rfl

theorem monthName_label_unique (m m2 : Fin 12) (s : Str)
    (h : (monthName m ++ ' ' :: s).take ((monthName m2 ++ [' ']).length) =
      monthName m2 ++ [' ']) : m2 = m := by
  have hlen : (monthName m2 ++ [' ']).length = (monthName m2).length + 1 := by
    simp
  rw [hlen] at h
  rcases Nat.lt_trichotomy (monthName m2).length (monthName m).length with hlt | heq | hgt
  · exfalso
    rw [List.take_append_eq_append_take,
      show (monthName m2).length + 1 - (monthName m).length = 0 by omega,
      List.take_zero, List.append_nil] at h
    exact names_take_ne m m2 hlt h
  · rw [show (monthName m2).length + 1 = (monthName m).length + 1 by omega,
      take_label] at h
    exact names_inj m2 m (List.append_cancel_right h.symm)
  · exfalso
    have h2 := congrArg (List.take ((monthName m).length + 1)) h
    rw [List.take_take,
      show ((monthName m).length + 1) ⊓ ((monthName m2).length + 1) =
        (monthName m).length + 1 by omega,
      take_label, List.take_append_eq_append_take,
      show (monthName m).length + 1 - (monthName m2).length = 0 by omega,
      List.take_zero, List.append_nil] at h2
    exact names_take_ne m2 m hgt h2.symm

theorem toNat_digit {k : Nat} (h : k < 10) :
    (Char.ofNat (48 + k)).toNat = 48 + k := by
  interval_cases k <;> rfl

theorem foldl_digits_natDigitsAux :
    ∀ fuel n a, n < fuel →
    List.foldl (fun a c => a * 10 + (c.toNat - 48)) a (natDigitsAux fuel n) =
      a * 10 ^ (natDigitsAux fuel n).length + n := by
  intro fuel
  induction fuel with
  | zero => intro n a h; omega
  | succ f ih =>
    intro n a h
    rw [natDigitsAux]
    by_cases h10 : n < 10
    · rw [if_pos h10]
      show a * 10 + ((Char.ofNat (48 + n)).toNat - 48) = a * 10 ^ [Char.ofNat (48 + n)].length + n
      rw [toNat_digit h10]
      have h1 : 48 + n - 48 = n := by omega
      rw [h1, List.length_singleton, pow_one]
    · rw [if_neg h10, List.foldl_append, ih (n / 10) a (by omega)]
      show (a * 10 ^ (natDigitsAux f (n / 10)).length + n / 10) * 10 +
          ((Char.ofNat (48 + n % 10)).toNat - 48) =
        a * 10 ^ (natDigitsAux f (n / 10) ++ [Char.ofNat (48 + n % 10)]).length + n
      rw [toNat_digit (by omega), List.length_append, List.length_singleton, pow_succ]
      have h1 : 48 + n % 10 - 48 = n % 10 := by omega
      have hdm : n / 10 * 10 + n % 10 = n := by omega
      rw [h1]
      calc (a * 10 ^ (natDigitsAux f (n / 10)).length + n / 10) * 10 + n % 10
          = a * (10 ^ (natDigitsAux f (n / 10)).length * 10) +
            (n / 10 * 10 + n % 10) := by ring
        _ = a * (10 ^ (natDigitsAux f (n / 10)).length * 10) + n := by rw [hdm]

theorem digitsVal_natDigits (y : Nat) : digitsVal (natDigits y) = y := by
  show List.foldl _ 0 (natDigitsAux (y + 1) y) = y
  rw [foldl_digits_natDigitsAux (y + 1) y 0 (by omega)]
  simp

theorem digitsVal_replicate_zero (k : Nat) (s : Str) :
    digitsVal (List.replicate k '0' ++ s) = digitsVal s := by
  induction k with
  | zero => rfl
  | succ n ih =>
    rw [List.replicate_succ, List.cons_append]
    show digitsVal (List.replicate n '0' ++ s) = digitsVal s
    exact ih

theorem digitsVal_yearStr (y : Nat) : digitsVal (yearStr y) = y := by
  rw [yearStr, digitsVal_replicate_zero, digitsVal_natDigits]

theorem yearStr_digits (y : Nat) : ∀ c ∈ yearStr y, isDigitChar c = true := by
  intro c hc
  rw [yearStr] at hc
  rcases List.mem_append.1 hc with h | h
  · rw [List.eq_of_mem_replicate h]
    rfl
  · exact natDigitsAux_digits (y + 1) y (by omega) c h

theorem yearStr_ne_nil (y : Nat) : yearStr y ≠ [] := by
  rw [yearStr]
  intro h
  exact natDigitsAux_ne_nil (show y < y + 1 by omega) (List.append_eq_nil.1 h).2

theorem findSome?_unique {α β : Type} (f : α → Option β) (a : α) (b : β)
    (hfa : f a = some b) :
    ∀ l : List α, a ∈ l → (∀ x ∈ l, x ≠ a → f x = none) →
    l.findSome? f = some b := by
  intro l
  induction l with
  | nil => intro h; cases h
  | cons x xs ih =>
    intro hmem hnone
    rw [List.findSome?]
    by_cases hx : x = a
    · subst hx
      rw [hfa]
    · rw [hnone x (List.mem_cons_self x xs) hx]
      refine ih ?_ (fun y hy hne => hnone y (List.mem_cons.2 (Or.inr hy)) hne)
      rcases List.mem_cons.1 hmem with h | h
      · exact absurd h.symm hx
      · exact h

theorem monthCand_self (d : MonthDate) : monthCand (monthKey d) d.month = some d := by
  rw [monthCand, monthKey]
  have hlen : (monthName d.month ++ [' ']).length = (monthName d.month).length + 1 := by
    simp
  rw [hlen, take_label, if_pos rfl, drop_label]
  rw [if_neg (fun h => yearStr_ne_nil d.year (List.isEmpty_iff.1 h)),
    if_pos (List.all_eq_true.2 (yearStr_digits d.year)), digitsVal_yearStr]

theorem monthCand_other (d : MonthDate) (m2 : Fin 12) (hne : m2 ≠ d.month) :
    monthCand (monthKey d) m2 = none := by
  rw [monthCand]
  refine if_neg ?_
  intro hcond
  rw [monthKey] at hcond
  exact hne (monthName_label_unique d.month m2 (yearStr d.year) hcond)

theorem parseMonthLabel_monthKey (d : MonthDate) :
    parseMonthLabel (monthKey d) = some d := by
  rw [parseMonthLabel]
  exact findSome?_unique (monthCand (monthKey d)) d.month d (monthCand_self d)
    (List.finRange 12) (List.mem_finRange d.month)
    (fun m2 _ hne => monthCand_other d m2 hne)

theorem any_key_iff (m : List (Str × Rat × Nat)) (key : Str) :
    m.any (fun p => p.1 = key) = true ↔ key ∈ m.map Prod.fst := by
  rw [List.any_eq_true]
  constructor
  · rintro ⟨p, hp, he⟩
    have he2 : p.1 = key := by simpa using he
    exact List.mem_map.2 ⟨p, hp, he2⟩
  · intro h
    obtain ⟨p, hp, rfl⟩ := List.mem_map.1 h
    exact ⟨p, hp, by simp⟩

theorem addTransfer_keys (m : List (Str × Rat × Nat)) (key : Str) (amt : Rat) :
    (addTransfer m key amt).map Prod.fst =
      if m.any (fun p => p.1 = key) then m.map Prod.fst
      else m.map Prod.fst ++ [key] := by
  unfold addTransfer
  by_cases h : m.any (fun p => p.1 = key) = true
  · rw [if_pos h, if_pos h, List.map_map]
    apply List.map_congr_left
    intro p _
    by_cases hk : p.1 = key <;> simp [hk]
  · rw [if_neg h, if_neg h, List.map_append]
    rfl

theorem group_foldl_keys (ts : List MTransfer) :
    ∀ acc : List (Str × Rat × Nat), (acc.map Prod.fst).Nodup →
    (((ts.foldl (fun m t => addTransfer m (monthKey t.date) t.amount) acc).map
        Prod.fst).Nodup ∧
      ∀ k, k ∈ (ts.foldl (fun m t => addTransfer m (monthKey t.date) t.amount)
          acc).map Prod.fst ↔
        (k ∈ acc.map Prod.fst ∨ ∃ t ∈ ts, monthKey t.date = k)) := by
  induction ts with
  | nil =>
    intro acc hnd
    exact ⟨hnd, fun k => by simp⟩
  | cons t ts ih =>
    intro acc hnd
    rw [List.foldl_cons]
    by_cases hmem : monthKey t.date ∈ acc.map Prod.fst
    · have hkeys : (addTransfer acc (monthKey t.date) t.amount).map Prod.fst =
          acc.map Prod.fst := by
        rw [addTransfer_keys, if_pos ((any_key_iff acc (monthKey t.date)).2 hmem)]
      obtain ⟨ih1, ih2⟩ := ih (addTransfer acc (monthKey t.date) t.amount)
        (by rw [hkeys]; exact hnd)
      refine ⟨ih1, fun k => ?_⟩
      rw [ih2 k, hkeys]
      constructor
      · rintro (h | h)
        · exact Or.inl h
        · exact Or.inr ⟨h.choose, List.mem_cons.2 (Or.inr h.choose_spec.1),
            h.choose_spec.2⟩
      · rintro (h | ⟨t2, ht2, hk⟩)
        · exact Or.inl h
        · rcases List.mem_cons.1 ht2 with rfl | ht2b
          · exact Or.inl (hk ▸ hmem)
          · exact Or.inr ⟨t2, ht2b, hk⟩
    · have hkeys : (addTransfer acc (monthKey t.date) t.amount).map Prod.fst =
          acc.map Prod.fst ++ [monthKey t.date] := by
        rw [addTransfer_keys, if_neg]
        intro hany
        exact hmem ((any_key_iff acc (monthKey t.date)).1 hany)
      obtain ⟨ih1, ih2⟩ := ih (addTransfer acc (monthKey t.date) t.amount)
        (by
          rw [hkeys, List.nodup_append]
          exact ⟨hnd, List.nodup_singleton _,
            fun x hx hx2 => hmem (by rwa [List.mem_singleton.1 hx2] at hx)⟩)
      refine ⟨ih1, fun k => ?_⟩
      rw [ih2 k, hkeys]
      constructor
      · rintro (h | h)
        · rcases List.mem_append.1 h with h2 | h2
          · exact Or.inl h2
          · exact Or.inr ⟨t, List.mem_cons_self t ts, (List.mem_singleton.1 h2).symm⟩
        · exact Or.inr ⟨h.choose, List.mem_cons.2 (Or.inr h.choose_spec.1),
            h.choose_spec.2⟩
      · rintro (h | ⟨t2, ht2, hk⟩)
        · exact Or.inl (List.mem_append.2 (Or.inl h))
        · rcases List.mem_cons.1 ht2 with rfl | ht2b
          · exact Or.inl (List.mem_append.2 (Or.inr (List.mem_singleton.2 hk.symm)))
          · exact Or.inr ⟨t2, ht2b, hk⟩

theorem groupMonthly_keys (ts : List MTransfer) :
    ((groupMonthly ts).map Prod.fst).Nodup ∧
      ∀ k, k ∈ (groupMonthly ts).map Prod.fst ↔ ∃ t ∈ ts, monthKey t.date = k := by
  obtain ⟨h1, h2⟩ := group_foldl_keys ts [] (by simp)
  refine ⟨h1, fun k => ?_⟩
  rw [groupMonthly, h2 k]
  simp

/-- C6 counterexample: for the aggregation request whose matching
records are a single March transfer, the route's array has one entry,
not twelve pre-seeded month entries. -/
theorem monthly_route_no_preseed :
    monthlyTotalsArray [⟨5, ⟨2024, 2⟩⟩] = [⟨"March 2024".data, 5, 1⟩] ∧
    (monthlyTotalsArray [⟨5, ⟨2024, 2⟩⟩]).length ≠ 12 := by
  constructor
  · rfl
  · decide

/-- C6 (amended): the route's array has one entry per distinct month
label among the matching records — months with no records are absent —
sorted chronologically by the parsed month (every label the route
produces parses back to its month, so the order is by year and calendar
month, not lexicographic by label); the twelve-entry zero-filled view is
produced by the client page, whose merge of the route data into the
`eachMonthOfInterval` pre-seed yields exactly 12 entries, one per
calendar month of the year in order, zero-valued exactly where the
route data has no entry for that month's label. -/
theorem monthly_aggregation_contract (ts : List MTransfer) (year : Nat)
    (data : List MonthlyTotal) :
    List.Sorted byTime (monthlyTotalsArray ts) ∧
    (∀ d : MonthDate, parseMonthLabel (monthKey d) = some d) ∧
    ((monthlyTotalsArray ts).map MonthlyTotal.month).Nodup ∧
    (∀ k, k ∈ (monthlyTotalsArray ts).map MonthlyTotal.month ↔
      ∃ t ∈ ts, monthKey t.date = k) ∧
    (clientMergeMonths year data).length = 12 ∧
    (∀ i : Fin 12, ∃ e, (clientMergeMonths year data)[i.1]? = some e ∧
      e.month = monthKey ⟨year, i⟩ ∧
      (data.find? (fun x => x.month = monthKey ⟨year, i⟩) = none →
        e.totalAmount = 0 ∧ e.numberOfTransfers = 0) ∧
      (∀ d2, data.find? (fun x => x.month = monthKey ⟨year, i⟩) = some d2 →
        e = d2)) := by
  have hperm : (monthlyTotalsArray ts).Perm
      ((groupMonthly ts).map (fun p => (⟨p.1, p.2.1, p.2.2⟩ : MonthlyTotal))) :=
    List.perm_insertionSort byTime _
  have hmm : ((groupMonthly ts).map
      (fun p => (⟨p.1, p.2.1, p.2.2⟩ : MonthlyTotal))).map MonthlyTotal.month =
      (groupMonthly ts).map Prod.fst := by
    rw [List.map_map]
    rfl
  have hpm : ((monthlyTotalsArray ts).map MonthlyTotal.month).Perm
      ((groupMonthly ts).map Prod.fst) := by
    have h := hperm.map MonthlyTotal.month
    rwa [hmm] at h
  obtain ⟨gk1, gk2⟩ := groupMonthly_keys ts
  refine ⟨List.sorted_insertionSort byTime _, parseMonthLabel_monthKey,
    hpm.nodup_iff.2 gk1, fun k => hpm.mem_iff.trans (gk2 k), by
      simp [clientMergeMonths, zeroMonths], ?_⟩
  intro i
  have hfin := (by decide : ∀ j : Fin 12, (List.finRange 12)[j.1]? = some j) i
  have hcm : ∀ e0 : MonthlyTotal,
      (match data.find? (fun x => x.month = monthKey ⟨year, i⟩) with
        | some d2 => d2
        | none => (⟨monthKey ⟨year, i⟩, 0, 0⟩ : MonthlyTotal)) = e0 →
      (clientMergeMonths year data)[i.1]? = some e0 := by
    intro e0 he0
    rw [clientMergeMonths, zeroMonths, List.map_map, List.getElem?_map, hfin]
    show some (match data.find? (fun x => x.month = monthKey ⟨year, i⟩) with
      | some d2 => d2
      | none => (⟨monthKey ⟨year, i⟩, 0, 0⟩ : MonthlyTotal)) = some e0
    rw [he0]
  cases hfind : data.find? (fun x => x.month = monthKey ⟨year, i⟩) with
  | none =>
    refine ⟨⟨monthKey ⟨year, i⟩, 0, 0⟩, hcm _ (by rw [hfind]), rfl,
      fun _ => ⟨rfl, rfl⟩, ?_⟩
    intro d2 hd2
    exact Option.noConfusion hd2
  | some dd =>
    refine ⟨dd, hcm _ (by rw [hfind]), ?_, ?_, ?_⟩
    · have h := List.find?_some hfind
      simpa using h
    · intro hnone
      exact Option.noConfusion hnone
    · intro d2 hd2
      injection hd2 with h

theorem monthly_aggregation_contract_witness :
    (clientMergeMonths 2024 [⟨"March 2024".data, 5, 1⟩]).length = 12 ∧
    (∃ e,
      (clientMergeMonths 2024 [⟨"March 2024".data, 5, 1⟩])[(0 : Fin 12).1]? =
        some e ∧
      e.month = monthKey ⟨2024, 0⟩ ∧ e.totalAmount = 0 ∧
      e.numberOfTransfers = 0) := by
  have h := monthly_aggregation_contract [] 2024 [⟨"March 2024".data, 5, 1⟩]
  obtain ⟨e, he1, he2, he3, _⟩ := h.2.2.2.2.2 0
  have hnone : ([⟨"March 2024".data, 5, 1⟩] : List MonthlyTotal).find?
      (fun x => x.month = monthKey ⟨2024, (0 : Fin 12)⟩) = none := by decide
  obtain ⟨hz1, hz2⟩ := he3 hnone
  exact ⟨h.2.2.2.2.1, e, he1, he2, hz1, hz2⟩

/-- JS `\s` on the whitespace code points that occur in mail bodies
(space, tab, line feed, carriage return, vertical tab, form feed,
no-break space). -/
def isSpaceChar (c : Char) : Bool :=
  c = ' ' || c = '\t' || c = '\n' || c = '\x0d' || c = '\x0b' || c = '\x0c' ||
    c = ' '

/-- Case canonicalization of the `/i` flag (canonicalize = toUpperCase),
restricted to the letters the two label alternations use: ASCII and the
Greek letters of `Από` and `Ποσό` (both sigmas canonicalize to `Σ`). -/
def canonChar (c : Char) : Char :=
  if 'a' ≤ c ∧ c ≤ 'z' then Char.ofNat (c.toNat - 32)
  else if c = 'ς' ∨ c = 'σ' then 'Σ'
  else if c = 'α' then 'Α'
  else if c = 'π' then 'Π'
  else if c = 'ο' then 'Ο'
  else if c = 'ό' then 'Ό'
  else c

/-- A greedy `p*` with backtracking: consume as long a run of `p` as
possible, then hand the rest to the continuation `k`, retrying on
shorter runs if `k` fails — the exact priority order of a backtracking
regex engine. -/
def starLoop (p : Char → Bool) (k : Str → Option Str) : Str → Option Str
  | [] => k []
  | c :: r =>
    if p c then
      match starLoop p k r with
      | some v => some v
      | none => k (c :: r)
    else k (c :: r)

/-- `(.*?)(?:\r?\n|$)` (no `m` flag): the lazy capture checks the
terminator before extending; `.` matches neither `\n` nor `\r`, so a
carriage return not followed by a line feed kills the match. -/
def capTerm (s : Str) : Option Str :=
  match s with
  | [] => some []
  | '\n' :: _ => some []
  | '\x0d' :: r =>
    match r with
    | '\n' :: _ => some []
    | _ => none
  | c :: r => (capTerm r).map (fun cap => c :: cap)

/-- Greedy `[€]?` with backtracking into the skipped alternative. -/
def optEuro (k : Str → Option Str) : Str → Option Str :=
  fun s =>
    match s with
    | '€' :: r =>
      match k r with
      | some v => some v
      | none => k s
    | _ => k s

/-- The capture `(\d+(?:\.\d{2})?)`: greedy digits, then optionally a
dot and exactly two digits. -/
def digitsCap (s : Str) : Option Str :=
  let ds := s.takeWhile isDigitChar
  if ds = [] then none
  else
    match s.dropWhile isDigitChar with
    | '.' :: a :: b :: _ =>
      if isDigitChar a && isDigitChar b then some (ds ++ ['.', a, b]) else some ds
    | _ => some ds

/-- The tail `\s*[:]*\s*(.*?)(?:\r?\n|$)` of the `From` pattern. -/
def fromTail : Str → Option Str :=
  starLoop isSpaceChar (starLoop (fun c => c = ':') (starLoop isSpaceChar capTerm))

/-- The tail `\s*[:]*\s*[€]?\s*(\d+(?:\.\d{2})?)` of the `Amount`
pattern. -/
def amountTail : Str → Option Str :=
  starLoop isSpaceChar (starLoop (fun c => c = ':')
    (starLoop isSpaceChar (optEuro (starLoop isSpaceChar digitsCap))))

/-- The alternatives `(?:From|Από|From:)` of the sender pattern. -/
def fromLabels : List Str := ["From".data, "Από".data, "From:".data]

/-- The alternatives `(?:Amount|Ποσό|Amount:)` of the amount pattern. -/
def amountLabels : List Str := ["Amount".data, "Ποσό".data, "Amount:".data]

/-- Try each label alternative in order at the current position
(case-insensitively), then run the pattern tail after it. -/
def labelAt (labels : List Str) (tail : Str → Option Str) (s : Str) : Option Str :=
  labels.findSome? (fun lab =>
    if (s.take lab.length).map canonChar = lab.map canonChar then
      tail (s.drop lab.length)
    else none)

/-- `String.prototype.match`: try the pattern at each position from the
left; the first position with a match wins. -/
def reSearch (matchAt : Str → Option Str) : Str → Option Str
  | [] => matchAt []
  | c :: r =>
    match matchAt (c :: r) with
    | some v => some v
    | none => reSearch matchAt r

/-- `body.match(/(?:From|Από|From:)\s*[:]*\s*(.*?)(?:\r?\n|$)/i)`,
giving capture group 1. -/
def fromSearch (body : Str) : Option Str :=
  reSearch (labelAt fromLabels fromTail) body

/-- `body.match(/(?:Amount|Ποσό|Amount:)\s*[:]*\s*[€]?\s*(\d+(?:\.\d{2})?)/i)`,
giving capture group 1. -/
def labelAmountSearch (body : Str) : Option Str :=
  reSearch (labelAt amountLabels amountTail) body

/-- JS `trim()`. -/
def trimStr (s : Str) : Str :=
  ((s.dropWhile isSpaceChar).reverse.dropWhile isSpaceChar).reverse

/-- The `Transfer` the gmail route's extractor returns; `sender` models
the source's `from` field (a reserved word here), `amount` keeps the
captured numeral verbatim (`parseFloat` of a plain decimal numeral is
injective, so the string stands for the number), and the wall-clock
`timestamp` field is elided. -/
structure Transfer where
  sender : Str
  amount : Str
deriving DecidableEq, Repr

/-- `parseEmailBody`: a Transfer only when BOTH the sender and the
amount pattern match; the sender capture is trimmed, the amount capture
is taken verbatim. The surrounding try/catch never fires in the model;
absence is `none`, never an error. -/
def parseEmailBody (body : Str) : Option Transfer :=
  match fromSearch body, labelAmountSearch body with
  | some f, some a => some ⟨trimStr f, a⟩
  | _, _ => none

/-- The numeral `(\d+[.,]\d+)`: greedy digits, one separator, greedy
digits. Neither digit run ever benefits from backtracking (a shorter
run leaves a digit where a non-digit is required), so maximal munch is
the regex's behavior. -/
def numLexAt (s : Str) : Option (Str × Str) :=
  if s.takeWhile isDigitChar = [] then none
  else
    match s.dropWhile isDigitChar with
    | c :: r2 =>
      if c = '.' ∨ c = ',' then
        if r2.takeWhile isDigitChar = [] then none
        else some (s.takeWhile isDigitChar ++ c :: r2.takeWhile isDigitChar,
          r2.dropWhile isDigitChar)
      else none
    | [] => none

/-- One position of `/[€](\d+[.,]\d+)|(\d+[.,]\d+)[€]/`: the first
alternative wants the euro sign before the numeral, the second wants it
right after; the returned string is the matched group. -/
def symbolMatchAt (s : Str) : Option Str :=
  match s with
  | [] => none
  | c :: r =>
    if c = '€' then (numLexAt r).map Prod.fst
    else
      match numLexAt (c :: r) with
      | some (num, rest) =>
        match rest with
        | e :: _ => if e = '€' then some num else none
        | [] => none
      | none => none

/-- The leftmost symbol-pattern match of the monthly route's
`parseAmount`. -/
def symbolSearch (body : Str) : Option Str :=
  reSearch symbolMatchAt body

/-- `replace(',', '.')` with a string pattern replaces the first
occurrence only. -/
def normalizeComma : Str → Str
  | [] => []
  | c :: r => if c = ',' then '.' :: r else c :: normalizeComma r

/-- The monthly route's `parseAmount`: the matched group with the comma
normalized to a dot (`parseFloat` elided as for `Transfer.amount`). -/
def parseAmount (body : Str) : Option Str :=
  (symbolSearch body).map normalizeComma

/-- A well-formed `(\d+[.,]\d+)` numeral. -/
def numLexP (w : Str) : Prop :=
  ∃ d1 c d2, w = d1 ++ c :: d2 ∧ d1 ≠ [] ∧ d2 ≠ [] ∧
    (∀ x ∈ d1, isDigitChar x = true) ∧ (∀ x ∈ d2, isDigitChar x = true) ∧
    (c = '.' ∨ c = ',')

/-- The body contains the numeral `m` directly after or directly before
a euro sign. -/
def symbolHitWith (s m : Str) : Prop :=
  (∃ u v, s = u ++ '€' :: (m ++ v) ∧ numLexP m) ∨
  (∃ u v, s = u ++ (m ++ '€' :: v) ∧ numLexP m)

theorem numLexAt_sound {s m r : Str} (h : numLexAt s = some (m, r)) :
    s = m ++ r ∧ numLexP m := by
  unfold numLexAt at h
  by_cases hd1 : s.takeWhile isDigitChar = []
  · rw [if_pos hd1] at h
    cases h
  · rw [if_neg hd1] at h
    cases hdrop : s.dropWhile isDigitChar with
    | nil => rw [hdrop] at h; cases h
    | cons c r2 =>
      rw [hdrop] at h
      replace h : (if c = '.' ∨ c = ',' then
          if List.takeWhile isDigitChar r2 = [] then none
          else some (List.takeWhile isDigitChar s ++
            c :: List.takeWhile isDigitChar r2, List.dropWhile isDigitChar r2)
        else none) = some (m, r) := h
      by_cases hc : c = '.' ∨ c = ','
      · rw [if_pos hc] at h
        by_cases hd2 : r2.takeWhile isDigitChar = []
        · rw [if_pos hd2] at h
          cases h
        · rw [if_neg hd2] at h
          injection h with h2
          rw [Prod.mk.injEq] at h2
          obtain ⟨hm, hr⟩ := h2
          subst hm
          subst hr
          constructor
          · conv_lhs => rw [← List.takeWhile_append_dropWhile isDigitChar s, hdrop]
            conv_lhs =>
              rw [show r2 = r2.takeWhile isDigitChar ++ r2.dropWhile isDigitChar from
                (List.takeWhile_append_dropWhile isDigitChar r2).symm]
            rw [List.append_assoc]
            rfl
          · exact ⟨s.takeWhile isDigitChar, c, r2.takeWhile isDigitChar, rfl, hd1,
              hd2, fun x hx => List.mem_takeWhile_imp hx,
              fun x hx => List.mem_takeWhile_imp hx, hc⟩
      · rw [if_neg hc] at h
        cases h

theorem numLexAt_shape {m : Str} (hm : numLexP m) (v : Str) :
    numLexAt (m ++ v) ≠ none := by
  obtain ⟨d1, c, d2, rfl, h1, h2, hd1, hd2, hc⟩ := hm
  have hcd : isDigitChar c = false := by
    rcases hc with rfl | rfl <;> rfl
  have htw : ((d1 ++ c :: d2) ++ v).takeWhile isDigitChar = d1 := by
    rw [List.append_assoc, List.cons_append, takeWhile_append_all _ hd1,
      List.takeWhile_cons, hcd]
    simp
  have hdw : ((d1 ++ c :: d2) ++ v).dropWhile isDigitChar = c :: (d2 ++ v) := by
    rw [List.append_assoc, List.cons_append, dropWhile_append_all _ hd1,
      dropWhile_cons_neg _ hcd]
  have htw2 : (d2 ++ v).takeWhile isDigitChar = d2 ++ v.takeWhile isDigitChar :=
    takeWhile_append_all _ hd2
  unfold numLexAt
  rw [htw, if_neg h1, hdw]
  show (if c = '.' ∨ c = ',' then
      if List.takeWhile isDigitChar (d2 ++ v) = [] then none
      else some (d1 ++ c :: List.takeWhile isDigitChar (d2 ++ v),
        List.dropWhile isDigitChar (d2 ++ v))
    else none) ≠ none
  rw [if_pos hc, htw2]
  rw [if_neg (by
    intro hnil
    exact h2 (List.append_eq_nil.1 hnil).1)]
  intro h
  cases h

theorem numLexAt_exact {m : Str} (hm : numLexP m) (v : Str) :
    numLexAt (m ++ '€' :: v) = some (m, '€' :: v) := by
  obtain ⟨d1, c, d2, rfl, h1, h2, hd1, hd2, hc⟩ := hm
  have hcd : isDigitChar c = false := by
    rcases hc with rfl | rfl <;> rfl
  have heu : isDigitChar '€' = false := rfl
  have htw : ((d1 ++ c :: d2) ++ '€' :: v).takeWhile isDigitChar = d1 := by
    rw [List.append_assoc, List.cons_append, takeWhile_append_all _ hd1,
      List.takeWhile_cons, hcd]
    simp
  have hdw : ((d1 ++ c :: d2) ++ '€' :: v).dropWhile isDigitChar =
      c :: (d2 ++ '€' :: v) := by
    rw [List.append_assoc, List.cons_append, dropWhile_append_all _ hd1,
      dropWhile_cons_neg _ hcd]
  have htw2 : (d2 ++ '€' :: v).takeWhile isDigitChar = d2 := by
    rw [takeWhile_append_all _ hd2, List.takeWhile_cons, heu]
    simp
  have hdw2 : (d2 ++ '€' :: v).dropWhile isDigitChar = '€' :: v := by
    rw [dropWhile_append_all _ hd2, dropWhile_cons_neg _ heu]
  unfold numLexAt
  rw [htw, if_neg h1, hdw]
  show (if c = '.' ∨ c = ',' then
      if List.takeWhile isDigitChar (d2 ++ '€' :: v) = [] then none
      else some (d1 ++ c :: List.takeWhile isDigitChar (d2 ++ '€' :: v),
        List.dropWhile isDigitChar (d2 ++ '€' :: v))
    else none) = some (d1 ++ c :: d2, '€' :: v)
  rw [if_pos hc, htw2, if_neg h2, hdw2]

theorem reSearch_sound {M : Str → Option Str} :
    ∀ s g, reSearch M s = some g → ∃ u w, s = u ++ w ∧ M w = some g := by
  intro s
  induction s with
  | nil => intro g h; exact ⟨[], [], rfl, h⟩
  | cons c r ih =>
    intro g h
    rw [reSearch] at h
    cases hM : M (c :: r) with
    | some v =>
      rw [hM] at h
      injection h with hv
      exact ⟨[], c :: r, rfl, by rw [hM, hv]⟩
    | none =>
      rw [hM] at h
      obtain ⟨u, w, hs, hw⟩ := ih g h
      exact ⟨c :: u, w, by rw [List.cons_append, ← hs], hw⟩

theorem reSearch_complete {M : Str → Option Str} {w : Str} (hw : M w ≠ none) :
    ∀ u, reSearch M (u ++ w) ≠ none := by
  intro u
  induction u with
  | nil =>
    cases w with
    | nil => exact hw
    | cons c r =>
      rw [List.nil_append, reSearch]
      cases hM : M (c :: r) with
      | some v => simp
      | none => exact absurd hM hw
  | cons c u ih =>
    rw [List.cons_append, reSearch]
    cases hM : M (c :: (u ++ w)) with
    | some v => simp
    | none => exact ih

theorem symbolMatchAt_sound {s g : Str} (h : symbolMatchAt s = some g) :
    (∃ v, s = '€' :: (g ++ v) ∧ numLexP g) ∨
    (∃ v, s = g ++ '€' :: v ∧ numLexP g) := by
  unfold symbolMatchAt at h
  cases s with
  | nil => cases h
  | cons c r =>
    replace h : (if c = '€' then Option.map Prod.fst (numLexAt r)
      else
        match numLexAt (c :: r) with
        | some (num, rest) =>
          match rest with
          | e :: _ => if e = '€' then some num else none
          | [] => none
        | none => none) = some g := h
    by_cases hc : c = '€'
    · rw [if_pos hc] at h
      cases hn : numLexAt r with
      | none => rw [hn] at h; cases h
      | some p =>
        obtain ⟨num, rest⟩ := p
        rw [hn] at h
        injection h with hg
        obtain ⟨hsr, hP⟩ := numLexAt_sound hn
        subst hg
        subst hc
        exact Or.inl ⟨rest, by rw [hsr], hP⟩
    · rw [if_neg hc] at h
      cases hn : numLexAt (c :: r) with
      | none => rw [hn] at h; cases h
      | some p =>
        obtain ⟨num, rest⟩ := p
        rw [hn] at h
        cases rest with
        | nil => cases h
        | cons e rest2 =>
          replace h : (if e = '€' then some num else none) = some g := h
          by_cases he : e = '€'
          · rw [if_pos he] at h
            injection h with hg
            subst hg
            subst he
            obtain ⟨hsr, hP⟩ := numLexAt_sound hn
            exact Or.inr ⟨rest2, hsr, hP⟩
          · rw [if_neg he] at h
            cases h

theorem symbolMatchAt_complete1 {m : Str} (hm : numLexP m) (v : Str) :
    symbolMatchAt ('€' :: (m ++ v)) ≠ none := by
  show Option.map Prod.fst (numLexAt (m ++ v)) ≠ none
  cases hn : numLexAt (m ++ v) with
  | none => exact absurd hn (numLexAt_shape hm v)
  | some p => simp

theorem symbolMatchAt_complete2 {m : Str} (hm : numLexP m) (v : Str) :
    symbolMatchAt (m ++ '€' :: v) ≠ none := by
  have hx := hm
  obtain ⟨d1, c, d2, heq, h1, h2, hd1, hd2, hc⟩ := hx
  cases hd1c : d1 with
  | nil => exact absurd hd1c h1
  | cons x d1t =>
    subst hd1c
    have hxd : isDigitChar x = true := hd1 x (by simp)
    have hxe : ¬x = '€' := by
      intro hx2
      rw [hx2] at hxd
      exact absurd hxd (by decide)
    have hshape : m ++ '€' :: v = x :: ((d1t ++ c :: d2) ++ '€' :: v) := by
      rw [heq]
      simp
    rw [hshape]
    unfold symbolMatchAt
    show (if x = '€' then
        Option.map Prod.fst (numLexAt ((d1t ++ c :: d2) ++ '€' :: v))
      else
        match numLexAt (x :: ((d1t ++ c :: d2) ++ '€' :: v)) with
        | some (num, rest) =>
          match rest with
          | e :: _ => if e = '€' then some num else none
          | [] => none
        | none => none) ≠ none
    rw [if_neg hxe]
    have hex : numLexAt (x :: ((d1t ++ c :: d2) ++ '€' :: v)) = some (m, '€' :: v) := by
      rw [show x :: ((d1t ++ c :: d2) ++ '€' :: v) = m ++ '€' :: v by
        rw [hshape]]
      exact numLexAt_exact hm v
    rw [hex]
    show some m ≠ none
    intro h
    cases h

theorem symbolSearch_complete {s m : Str} (h : symbolHitWith s m) :
    symbolSearch s ≠ none := by
  rcases h with ⟨u, v, hs, hP⟩ | ⟨u, v, hs, hP⟩
  · rw [hs]
    exact reSearch_complete (symbolMatchAt_complete1 hP v) u
  · rw [hs]
    exact reSearch_complete (symbolMatchAt_complete2 hP v) u

theorem parseAmount_sound {s a : Str} (h : parseAmount s = some a) :
    ∃ m, symbolHitWith s m ∧ a = normalizeComma m := by
  unfold parseAmount at h
  cases hs : symbolSearch s with
  | none => rw [hs] at h; cases h
  | some g =>
    rw [hs] at h
    injection h with ha
    obtain ⟨u, w, hsw, hMw⟩ := reSearch_sound s g hs
    rcases symbolMatchAt_sound hMw with ⟨v, hw2, hP⟩ | ⟨v, hw2, hP⟩
    · exact ⟨g, Or.inl ⟨u, v, by rw [hsw, hw2], hP⟩, ha.symm⟩
    · exact ⟨g, Or.inr ⟨u, v, by rw [hsw, hw2], hP⟩, ha.symm⟩

theorem parseEmailBody_both {body : Str} {t : Transfer}
    (h : parseEmailBody body = some t) :
    ∃ f a, fromSearch body = some f ∧ labelAmountSearch body = some a ∧
      t = ⟨trimStr f, a⟩ := by
  unfold parseEmailBody at h
  cases hf : fromSearch body with
  | none =>
    cases ha : labelAmountSearch body with
    | none => rw [hf, ha] at h; cases h
    | some a => rw [hf, ha] at h; cases h
  | some f =>
    cases ha : labelAmountSearch body with
    | none => rw [hf, ha] at h; cases h
    | some a =>
      rw [hf, ha] at h
      injection h with ht
      exact ⟨f, a, rfl, rfl, ht.symm⟩

/-- C10 counterexample: the body `"Amount: 12.50"` carries a
recognizable label-based amount pattern (the amount regex matches and
captures `12.50`), yet the extractor returns no Transfer, because the
sender pattern also has to match; the symbol-based matcher finds
nothing either (no euro sign). -/
theorem extractor_requires_both :
    labelAmountSearch "Amount: 12.50".data = some "12.50".data ∧
    parseEmailBody "Amount: 12.50".data = none ∧
    parseAmount "Amount: 12.50".data = none := by
  refine ⟨by decide, by decide, by decide⟩

/-- C10 (amended): the symbol-based extractor returns an amount exactly
when the body contains a numeral directly adjacent to a euro sign — the
returned string is such a numeral with a comma separator normalized to
a dot, and absence of any such pattern gives no match, never an error;
the label-based extractor returns a Transfer only when BOTH the sender
and the amount pattern match (a body with only an amount pattern gives
no Transfer), taking the trimmed sender capture and the dot-decimal
amount capture verbatim, with no comma normalization on that path. -/
theorem extractor_contract (s body : Str) (a : Str) (t : Transfer) :
    (parseAmount s = some a → ∃ m, symbolHitWith s m ∧ a = normalizeComma m) ∧
    ((∃ m, symbolHitWith s m) → parseAmount s ≠ none) ∧
    (parseEmailBody body = some t →
      ∃ f a2, fromSearch body = some f ∧ labelAmountSearch body = some a2 ∧
        t = ⟨trimStr f, a2⟩) := by
  refine ⟨fun h => parseAmount_sound h, fun h => ?_, fun h => parseEmailBody_both h⟩
  obtain ⟨m, hm⟩ := h
  have hs := symbolSearch_complete hm
  unfold parseAmount
  cases hss : symbolSearch s with
  | none => exact absurd hss hs
  | some g => simp

theorem extractor_contract_witness :
    (∃ m, symbolHitWith "pay €2,65 now".data m ∧
      "2.65".data = normalizeComma m) ∧
    parseAmount "2,65€ ok".data ≠ none ∧
    (∃ f a2, fromSearch "From: Alice\nAmount: 3.00".data = some f ∧
      labelAmountSearch "From: Alice\nAmount: 3.00".data = some a2 ∧
      (⟨"Alice".data, "3.00".data⟩ : Transfer) = ⟨trimStr f, a2⟩) := by
  refine ⟨(extractor_contract "pay €2,65 now".data [] "2.65".data ⟨[], []⟩).1
      (by decide),
    (extractor_contract "2,65€ ok".data [] [] ⟨[], []⟩).2.1
      ⟨"2,65".data, Or.inr ⟨[], " ok".data, by decide,
        ⟨['2'], ',', ['6', '5'], by decide, by decide, by decide, by decide,
          by decide, Or.inr rfl⟩⟩⟩,
    (extractor_contract [] "From: Alice\nAmount: 3.00".data []
      ⟨"Alice".data, "3.00".data⟩).2.2 (by decide)⟩
